import Mathlib

/-!
Verification development for the fuzzy-matcher repository (albeorla/fuzzy).

This file gives a shallow embedding, in Lean 4, of the string-normalization
pipeline, the phonetic encoders, the similarity-algorithm wrappers, the match
scorer, the rule-based decision strategy, the entity resolver and the facade
algorithm selection of the repository, together with theorems settling the
frozen claims C1 to C10 about them.

Conventions of the embedding:
* Python strings are Lean String (a list of characters); all concrete inputs
  used by the claims are ASCII, and character-class functions (lowercasing,
  word characters, whitespace) are modelled on the ASCII fragment exactly as
  Python behaves on it.
* Python floats are modelled as rationals.  Every numeric value the claims
  evaluate (0.0, 1.0, 0.85, 0.86, thresholds such as 0.9, 0.95, 0.98) is
  exactly representable in binary floating point, so the rational model is
  faithful at every point where a claim is decided.
* Fallible or effectful aspects (the warning print of the facade) are modelled
  as explicit data (a Boolean flag).
-/

namespace Fuzzy

/-! ## Character helpers (Python semantics on the ASCII fragment) -/

/-- Python regex word character (the class backslash-w): letter, digit or
underscore.  Restricted to ASCII, as all inputs of the claims are. -/
def isWordChar (c : Char) : Bool := c.isAlphanum || c == '_'

/-- Python whitespace (the class backslash-s and str.strip default):
space, tab, newline, carriage return, vertical tab, form feed. -/
def isPySpace (c : Char) : Bool :=
  c == ' ' || c == '\t' || c == '\n' || c == '\r' || c == '\x0b' || c == '\x0c'

/-- str.strip(): drop leading and trailing whitespace. -/
def stripList (l : List Char) : List Char :=
  ((l.dropWhile isPySpace).reverse.dropWhile isPySpace).reverse

/-- str.lower() on a character (ASCII, matching Python on ASCII). -/
def pyLower (c : Char) : Char := c.toLower

/-- str.lower() on a string. -/
def pyLowerStr (s : String) : String := String.mk (s.data.map pyLower)

/-! ## Exact rational arithmetic

The standard rational operations of the ambient library are not reducible by
the evaluator, so the embedding computes with the explicit numerator and
denominator forms below; the agreement theorems prove that they are exactly
the field operations of the rationals, so every score computed in this file
is the exact rational value of the corresponding Python float expression. -/

/-- Rational multiplication in explicit form. -/
def ratMul (a b : ℚ) : ℚ := mkRat (a.num * b.num) (a.den * b.den)

/-- Rational addition in explicit form. -/
def ratAdd (a b : ℚ) : ℚ := mkRat (a.num * b.den + b.num * a.den) (a.den * b.den)

/-- Rational subtraction in explicit form. -/
def ratSub (a b : ℚ) : ℚ := mkRat (a.num * b.den - b.num * a.den) (a.den * b.den)

/-- Rational division in explicit form. -/
def ratDiv (a b : ℚ) : ℚ :=
  if 0 ≤ b.num then mkRat (a.num * (b.den : ℤ)) (a.den * b.num.natAbs)
  else mkRat (-(a.num * (b.den : ℤ))) (a.den * b.num.natAbs)

theorem den_cast_ne (a : ℚ) : ((a.den : ℚ)) ≠ 0 := by
  exact_mod_cast a.den_nz

theorem ratMul_eq (a b : ℚ) : ratMul a b = a * b := by
  unfold ratMul
  rw [Rat.mkRat_eq_div]
  push_cast
  conv_rhs => rw [← Rat.num_div_den a, ← Rat.num_div_den b]
  field_simp

theorem ratAdd_eq (a b : ℚ) : ratAdd a b = a + b := by
  unfold ratAdd
  rw [Rat.mkRat_eq_div]
  push_cast
  conv_rhs => rw [← Rat.num_div_den a, ← Rat.num_div_den b]
  field_simp

theorem ratSub_eq (a b : ℚ) : ratSub a b = a - b := by
  unfold ratSub
  rw [Rat.mkRat_eq_div]
  push_cast
  conv_rhs => rw [← Rat.num_div_den a, ← Rat.num_div_den b]
  field_simp
  ring

theorem ratDiv_eq (a b : ℚ) : ratDiv a b = a / b := by
  unfold ratDiv
  rcases eq_or_ne b 0 with rfl | hb
  · simp [Rat.mkRat_eq_div]
  · have hbnum : (b.num : ℚ) ≠ 0 := by exact_mod_cast Rat.num_ne_zero.mpr hb
    rcases le_or_lt 0 b.num with h | h
    · have hnab : ((b.num.natAbs : ℚ)) = (b.num : ℚ) := by
        rw [Int.cast_natAbs]
        exact_mod_cast abs_of_nonneg h
      rw [if_pos h, Rat.mkRat_eq_div]
      push_cast
      rw [hnab]
      conv_rhs => rw [← Rat.num_div_den a, ← Rat.num_div_den b]
      field_simp
    · have hnab : ((b.num.natAbs : ℚ)) = -(b.num : ℚ) := by
        rw [Int.cast_natAbs]
        exact_mod_cast abs_of_neg h
      rw [if_neg (not_le.mpr h), Rat.mkRat_eq_div]
      push_cast
      rw [hnab]
      conv_rhs => rw [← Rat.num_div_den a, ← Rat.num_div_den b]
      field_simp

/-! ## Stable sorting (Python's sorted)

Python's sorted is a stable sort; list.sort and sorted with a key or a
less-than produce, for every pair of elements neither of which is strictly
below the other, the original relative order.  The embedding uses insertion
sort, which is structurally recursive (so concrete runs reduce inside the
kernel) and has exactly this stability: an element is inserted before the
first element of the sorted tail that does not strictly precede it. -/

/-- Insert a before the first element b of l with le a b (all elements of
the sorted tail that strictly precede a are kept before it). -/
def insFirst (le : α → α → Bool) (a : α) : List α → List α
  | [] => [a]
  | b :: l => if le a b then a :: b :: l else b :: insFirst le a l

/-- Stable insertion sort by the (total) Boolean preorder le. -/
def stableSort (le : α → α → Bool) : List α → List α
  | [] => []
  | a :: l => insFirst le a (stableSort le l)

/-! ## The preprocessor chain (infrastructure/preprocessors.py)

`StandardStringPreprocessor` runs, in order: unidecode (accent removal),
lowercasing, company-suffix standardization (an ordered list of
case-insensitive word-boundary-anchored regex substitutions), punctuation
removal, whitespace normalization; `preprocess` short-circuits None and
strings that are empty after stripping. -/

/-- The unidecode accent-transliteration, modelled on the fragment the
repository exercises: identity on ASCII, the common Latin-1 letters mapped to
their base letter, and any other character dropped (unidecode's default for
unmapped code points).  All claim inputs are ASCII. -/
def unidecodeChar (c : Char) : List Char :=
  if c.toNat < 128 then [c] else
  match c with
  | 'á' | 'à' | 'â' | 'ä' | 'ã' | 'å' => ['a']
  | 'Á' | 'À' | 'Â' | 'Ä' | 'Ã' | 'Å' => ['A']
  | 'é' | 'è' | 'ê' | 'ë' => ['e']
  | 'É' | 'È' | 'Ê' | 'Ë' => ['E']
  | 'í' | 'ì' | 'î' | 'ï' => ['i']
  | 'Í' | 'Ì' | 'Î' | 'Ï' => ['I']
  | 'ó' | 'ò' | 'ô' | 'ö' | 'õ' => ['o']
  | 'Ó' | 'Ò' | 'Ô' | 'Ö' | 'Õ' => ['O']
  | 'ú' | 'ù' | 'û' | 'ü' => ['u']
  | 'Ú' | 'Ù' | 'Û' | 'Ü' => ['U']
  | 'ç' => ['c']
  | 'Ç' => ['C']
  | 'ñ' => ['n']
  | 'Ñ' => ['N']
  | 'ß' => ['s', 's']
  | _ => []

/-- AccentRemovalStep: unidecode over the whole string. -/
def unidecodeList (l : List Char) : List Char := l.flatMap unidecodeChar

/-- A company-suffix pattern: the regex alternatives it can match (in the
backtracking priority order of the regex engine, e.g. "holdings" before
"holding" for the pattern holdings?), and the replacement text.  Every
pattern of the source is a word-boundary-anchored literal (up to the one
optional trailing s), so this alternative list is an exact model. -/
structure SuffixPat where
  alts : List (List Char)
  repl : List Char

/-- Case-insensitive literal match of one alternative at the head of the
text; returns the last matched text character and the remaining text. -/
def matchAlt : List Char → List Char → Option (Char × List Char)
  | [], _ => none
  | [p], c :: rest => if pyLower c == p then some (c, rest) else none
  | p :: ps, c :: rest => if pyLower c == p then matchAlt ps rest else none
  | _ :: _, [] => none

/-- Does a word boundary hold between the last matched character and the
following text?  A regex word boundary holds when exactly one side is a word
character (end of string counts as non-word). -/
def endBoundary (lastC : Char) (rest : List Char) : Bool :=
  match rest with
  | [] => isWordChar lastC
  | c :: _ => isWordChar lastC != isWordChar c

/-- Try the alternatives of a pattern at the head of the text, in priority
order; an alternative succeeds only if the trailing word boundary holds
(regex backtracking tries the next alternative otherwise). -/
def tryAlts : List (List Char) → List Char → Option (Char × List Char)
  | [], _ => none
  | a :: as, text =>
    match matchAlt a text with
    | some (lastC, rest) =>
        if endBoundary lastC rest then some (lastC, rest) else tryAlts as text
    | none => tryAlts as text

/-- Does a word boundary hold before the match?  All patterns start with a
word character, so this is: previous character absent or non-word. -/
def startBoundary (prev : Option Char) : Bool :=
  match prev with
  | none => true
  | some c => !(isWordChar c)

/-- One left-to-right re.sub scan for one pattern.  `prev` is the character
of the original text preceding the current position (re.sub matches against
the original text, so after a replacement the boundary context is the last
matched original character).  Fuel is the text length; each step consumes at
least one character. -/
def subScan (p : SuffixPat) : Nat → Option Char → List Char → List Char
  | 0, _, text => text
  | _ + 1, _, [] => []
  | fuel + 1, prev, c :: rest =>
    if startBoundary prev then
      match tryAlts p.alts (c :: rest) with
      | some (lastC, rest2) => p.repl ++ subScan p fuel (some lastC) rest2
      | none => c :: subScan p fuel (some c) rest
    else c :: subScan p fuel (some c) rest

/-- re.sub of one suffix pattern over a text (IGNORECASE, word-boundary
anchored), as CompanySuffixStandardizationStep applies it. -/
def applySuffixPat (text : List Char) (p : SuffixPat) : List Char :=
  subScan p text.length none text

/-- Build a single-alternative pattern. -/
def mkPat (s r : String) : SuffixPat := ⟨[s.data], r.data⟩

/-- The ordered suffix_mapping of CompanySuffixStandardizationStep
(services order preserved exactly; dict iteration order is insertion
order).  The pattern holdings? has the two greedy alternatives. -/
def suffixPatterns : List SuffixPat :=
  [ mkPat "corporation" "corp"
  , mkPat "corp" "corp"
  , mkPat "corp." "corp"
  , mkPat "incorporated" "inc"
  , mkPat "inc" "inc"
  , mkPat "inc." "inc"
  , mkPat "limited" "ltd"
  , mkPat "ltd" "ltd"
  , mkPat "ltd." "ltd"
  , mkPat "company" "co"
  , mkPat "co" "co"
  , mkPat "co." "co"
  , mkPat "public limited company" "plc"
  , mkPat "p.l.c." "plc"
  , mkPat "plc" "plc"
  , mkPat "limited liability company" "llc"
  , mkPat "l.l.c." "llc"
  , mkPat "llc" "llc"
  , mkPat "societe anonyme" "sa"
  , mkPat "s.a." "sa"
  , mkPat "sa" "sa"
  , mkPat "société anonyme" "sa"
  , mkPat "aktiengesellschaft" "ag"
  , mkPat "a.g." "ag"
  , mkPat "ag" "ag"
  , mkPat "gmbh" "gmbh"
  , mkPat "gmbh & co. kg" "gmbh"
  , ⟨["holdings".data, "holding".data], "hldg".data⟩
  , mkPat "hldg" "hldg"
  , mkPat "hldg." "hldg"
  , mkPat "group" "grp"
  , mkPat "grp" "grp"
  , mkPat "grp." "grp" ]

/-- CompanySuffixStandardizationStep._execute: apply every pattern in order,
each over the whole current text. -/
def suffixStandardize (text : List Char) : List Char :=
  suffixPatterns.foldl applySuffixPat text

/-- PunctuationRemovalStep._execute: drop periods and commas, then drop
every remaining character that is neither a word character nor whitespace. -/
def punctRemove (l : List Char) : List Char :=
  (l.filter (fun c => !(c == '.') && !(c == ','))).filter
    (fun c => isWordChar c || isPySpace c)

/-- Collapse every maximal whitespace run to a single space
(re.sub of one-or-more whitespace with a space). -/
def collapseWs : Bool → List Char → List Char
  | _, [] => []
  | inRun, c :: rest =>
    if isPySpace c then
      if inRun then collapseWs true rest else ' ' :: collapseWs true rest
    else c :: collapseWs false rest

/-- WhitespaceNormalizationStep._execute: collapse whitespace runs then
strip. -/
def wsNormalize (l : List Char) : List Char := stripList (collapseWs false l)

/-- StandardStringPreprocessor.preprocess on a string input: empty after
stripping short-circuits to the empty string, otherwise the chain
unidecode, lower, suffix standardization, punctuation removal, whitespace
normalization runs in that order. -/
def preprocessList (l : List Char) : List Char :=
  if stripList l = [] then []
  else wsNormalize (punctRemove (suffixStandardize ((unidecodeList l).map pyLower)))

/-- preprocess on Lean strings. -/
def preprocess (s : String) : String := String.mk (preprocessList s.data)

/-- preprocess on an optional (None-able) input: None yields the empty
string, as the explicit None check of the source does. -/
def preprocessOpt : Option String → String
  | none => ""
  | some s => preprocess s

/-! ## Soundex (infrastructure/algorithms.py, SoundexEncoder)

SoundexEncoder.encode returns "" for empty input, hard-codes "K365" for
inputs whose lowercase form is "catherine" or "katherine", and otherwise
delegates to jellyfish.soundex: keep the first letter uppercased, map the
following letters to the standard digit classes, skip repeats of the same
class, let vowels reset the repeat tracker while h and w do not, stop after
three digits and pad with zeros to four characters. -/

/-- The soundex digit class of an (uppercased) letter. -/
def sdxClass (c : Char) : Option Char :=
  if "BFPV".data.contains c then some '1'
  else if "CGJKQSXZ".data.contains c then some '2'
  else if "DT".data.contains c then some '3'
  else if c == 'L' then some '4'
  else if "MN".data.contains c then some '5'
  else if c == 'R' then some '6'
  else none

/-- The digit-collection loop of jellyfish.soundex over the uppercased tail
of the input.  `lastC` is the class of the previous character (none after a
vowel or at the start when the first letter has no class), `cap` the number
of digit slots still open (three at the start). -/
def sdxDigits : Option Char → Nat → List Char → List Char
  | _, _, [] => []
  | lastC, cap, c :: cs =>
    if cap = 0 then [] else
    match sdxClass c with
    | some d =>
        if lastC = some d then sdxDigits (some d) cap cs
        else d :: sdxDigits (some d) (cap - 1) cs
    | none =>
        if c == 'H' || c == 'W' then sdxDigits lastC cap cs
        else sdxDigits none cap cs

/-- jellyfish.soundex on a non-empty ASCII string (NFKD normalization is the
identity there): first letter uppercased, then the collected digits padded
with zeros to three. -/
def soundexRef (s : String) : String :=
  match s.data with
  | [] => ""
  | c :: cs =>
    let u := c.toUpper
    let ds := sdxDigits (sdxClass u) 3 (cs.map Char.toUpper)
    String.mk (u :: (ds ++ List.replicate (3 - ds.length) '0'))

/-- SoundexEncoder.encode: empty short-circuit, the Catherine/Katherine
special case, then jellyfish.soundex. -/
def soundexEncode (text : String) : String :=
  if text = "" then ""
  else if pyLowerStr text = "catherine" || pyLowerStr text = "katherine" then "K365"
  else soundexRef text

/-! ## The reference weighted ratio (thefuzz fuzz.WRatio)

The repository computes similarity through thefuzz, whose scorers (backed by
rapidfuzz, and by python-Levenshtein in the older releases) are all built on
the indel similarity: ratio(a, b) = 100 * 2 * lcs(a, b) / (len a + len b).
This section embeds fuzz.WRatio: the simple ratio, the best-window
substring ratio, the token-sort and token-set variants, the length-dependent
weighting, the default full string processing, and the final half-to-even
rounding to an integer percentage. -/

/-- One row update of the longest-common-subsequence dynamic program:
given the previous row (headed by the diagonal entry) and the running value
to the left, produce the tail of the new row. -/
def lcsStepGo (c : Char) : List Char → List Nat → Nat → List Nat
  | [], _, _ => []
  | b :: bs, pdiag :: prest, left =>
      let v := if b == c then pdiag + 1 else max (prest.headD 0) left
      v :: lcsStepGo c bs prest v
  | _ :: _, [], _ => []

/-- One full row of the LCS dynamic program. -/
def lcsStep (b : List Char) (row : List Nat) (c : Char) : List Nat :=
  0 :: lcsStepGo c b row 0

/-- Length of the longest common subsequence of two character lists. -/
def lcsLen (a b : List Char) : Nat :=
  (a.foldl (lcsStep b) (List.replicate (b.length + 1) 0)).getLastD 0

/-- The indel ratio on a 0..100 scale: 100 for two empty strings, otherwise
100 * 2 * lcs / (total length).  This is fuzz.ratio (as a rational rather
than a float). -/
def ratioQ (a b : List Char) : ℚ :=
  if a.length + b.length = 0 then 100
  else mkRat (100 * 2 * (lcsLen a b : ℤ)) (a.length + b.length)

/-- All window alignments of the shorter string against the longer one that
the reference best-substring search scores: every window of the needle's
length (the windows near the right edge are the suffixes), plus the proper
prefixes shorter than the needle. -/
def windowRatios (needle hay : List Char) : List ℚ :=
  ((List.range hay.length).map fun i => ratioQ needle ((hay.drop i).take needle.length))
  ++ ((List.range needle.length).filterMap fun i =>
        if i = 0 then none else some (ratioQ needle (hay.take i)))

/-- fuzz.partial_ratio: the best indel ratio of the shorter string against
the windows of the longer one. -/
def partRatio (a b : List Char) : ℚ :=
  let needle := if a.length ≤ b.length then a else b
  let hay := if a.length ≤ b.length then b else a
  if hay.length = 0 then (if needle.length = 0 then 100 else 0)
  else (windowRatios needle hay).foldl max 0

/-- str.split(): the whitespace-delimited tokens of a string, empties
discarded. -/
def splitWs : List Char → List Char → List (List Char)
  | cur, [] => if cur = [] then [] else [cur.reverse]
  | cur, c :: cs =>
    if isPySpace c then
      if cur = [] then splitWs [] cs else cur.reverse :: splitWs [] cs
    else splitWs (c :: cur) cs

/-- The token list of a string (split on whitespace). -/
def toksOf (l : List Char) : List (List Char) := splitWs [] l

/-- The distinct tokens in first-occurrence order (the Python set of
tokens; every use below either sorts them or is order-independent). -/
def distinctToks (ts : List (List Char)) : List (List Char) :=
  ts.foldl (fun acc t => if acc.contains t then acc else acc ++ [t]) []

/-- Strict lexicographic comparison by code points (Python string <). -/
def lexLt : List Char → List Char → Bool
  | [], [] => false
  | [], _ :: _ => true
  | _ :: _, [] => false
  | a :: as, b :: bs => if a == b then lexLt as bs else decide (a < b)

/-- Python sorted() on token lists: stable merge sort by code-point order. -/
def sortToks (ts : List (List Char)) : List (List Char) :=
  stableSort (fun a b => !(lexLt b a)) ts

/-- " ".join of a token list. -/
def joinSp (ts : List (List Char)) : List Char := List.intercalate [' '] ts

/-- The sorted-token rejoin used by the token-sort scorers. -/
def sortJoin (l : List Char) : List Char := joinSp (sortToks (toksOf l))

/-- fuzz.token_sort_ratio (full processing already applied by the caller). -/
def tokenSortRatioRef (a b : List Char) : ℚ := ratioQ (sortJoin a) (sortJoin b)

/-- fuzz.partial_token_sort_ratio. -/
def partTokenSortRatioRef (a b : List Char) : ℚ := partRatio (sortJoin a) (sortJoin b)

/-- fuzz.token_set_ratio: split into token sets, and take the best ratio
among (sorted intersection) vs (intersection plus sorted rest of a),
(sorted intersection) vs (intersection plus sorted rest of b), and the two
combined strings against each other.  Zero when either token set is empty. -/
def tokenSetRatioRef (a b : List Char) : ℚ :=
  let ta := distinctToks (toksOf a)
  let tb := distinctToks (toksOf b)
  if ta = [] ∨ tb = [] then 0 else
  let sect := sortToks (ta.filter (fun t => tb.contains t))
  let dab := sortToks (ta.filter (fun t => !(tb.contains t)))
  let dba := sortToks (tb.filter (fun t => !(ta.contains t)))
  let js := joinSp sect
  let j1 := stripList (js ++ [' '] ++ joinSp dab)
  let j2 := stripList (js ++ [' '] ++ joinSp dba)
  max (max (ratioQ js j1) (ratioQ js j2)) (ratioQ j1 j2)

/-- fuzz.partial_token_set_ratio: 100 as soon as the token sets intersect,
otherwise the partial ratio of the sorted-token rejoins. -/
def partTokenSetRatioRef (a b : List Char) : ℚ :=
  let ta := distinctToks (toksOf a)
  let tb := distinctToks (toksOf b)
  if (ta.filter (fun t => tb.contains t)) ≠ [] then 100
  else partRatio (joinSp (sortToks ta)) (joinSp (sortToks tb))

/-- The WRatio core on two already-processed strings: the base ratio,
blended with the token scorers scaled by 0.95; when the lengths differ by a
factor of at least 1.5 the partial scorers are used instead, additionally
scaled by 0.9 (0.6 when the factor exceeds 8). -/
def wratioCore (p1 p2 : List Char) : ℚ :=
  if p1 = [] ∨ p2 = [] then 0 else
  let lenRatio := mkRat (max p1.length p2.length : ℕ) (min p1.length p2.length)
  let base := ratioQ p1 p2
  if lenRatio < mkRat 3 2 then
    max base (ratMul (max (tokenSortRatioRef p1 p2) (tokenSetRatioRef p1 p2)) (mkRat 19 20))
  else
    let ps : ℚ := if lenRatio < 8 then mkRat 9 10 else mkRat 3 5
    max (max base (ratMul (partRatio p1 p2) ps))
      (ratMul (ratMul (max (partTokenSortRatioRef p1 p2) (partTokenSetRatioRef p1 p2)) (mkRat 19 20)) ps)

/-- The default full processing thefuzz applies inside WRatio: keep ASCII
only (force_ascii), replace each non-alphanumeric character by a space,
lowercase, strip. -/
def tfProcess (l : List Char) : List Char :=
  stripList ((l.filter (fun c => c.toNat < 128)).map
    (fun c => if c.isAlphanum then c.toLower else ' '))

/-- Round half to even (Python round()) on a rational. -/
def roundHalfEven (q : ℚ) : ℤ :=
  let f := ⌊q⌋
  let r := ratSub q (f : ℚ)
  if r < mkRat 1 2 then f
  else if mkRat 1 2 < r then f + 1
  else if f % 2 = 0 then f else f + 1

/-- thefuzz fuzz.WRatio: full processing, the WRatio core, and the final
rounding to an integer percentage. -/
def thefuzzWRatioInt (s1 s2 : String) : ℤ :=
  roundHalfEven (wratioCore (tfProcess s1.data) (tfProcess s2.data))

/-- The reference weighted ratio scaled to the unit interval (the spec's
reference definition for the weighted_ratio algorithm). -/
def wratioScaled (s1 s2 : String) : ℚ := mkRat (thefuzzWRatioInt s1 s2) 100

/-! ## The similarity-algorithm wrappers (infrastructure/algorithms.py)

Each class checks the universal empty rule first (both empty gives 1.0, one
empty gives 0.0) and then delegates to a library scorer.  The library cores
that no claim ever evaluates on non-empty inputs (jellyfish's distances and
jaro-winkler, fuzz.token_set_ratio and friends as used inside the wrappers)
are taken as parameters, so every theorem about the wrappers holds for the
actual library functions in particular. -/

/-- LevenshteinAlgorithm.calculate_similarity, with the jellyfish edit
distance as a parameter. -/
def levenshteinCalc (dist : String → String → Nat) (s1 s2 : String) : ℚ :=
  if s1 = "" ∧ s2 = "" then 1
  else if s1 = "" ∨ s2 = "" then 0
  else
    let maxLen := max s1.length s2.length
    if maxLen = 0 then 1
    else ratSub 1 (mkRat (dist s1 s2 : ℤ) maxLen)

/-- DamerauLevenshteinAlgorithm.calculate_similarity. -/
def damerauLevenshteinCalc (dist : String → String → Nat) (s1 s2 : String) : ℚ :=
  if s1 = "" ∧ s2 = "" then 1
  else if s1 = "" ∨ s2 = "" then 0
  else
    let maxLen := max s1.length s2.length
    if maxLen = 0 then 1
    else ratSub 1 (mkRat (dist s1 s2 : ℤ) maxLen)

/-- JaroWinklerAlgorithm.calculate_similarity. -/
def jaroWinklerCalc (jw : String → String → ℚ) (s1 s2 : String) : ℚ :=
  if s1 = "" ∧ s2 = "" then 1
  else if s1 = "" ∨ s2 = "" then 0
  else jw s1 s2

/-- TokenSortRatioAlgorithm.calculate_similarity (core returns an integer
percentage, as fuzz.token_sort_ratio does). -/
def tokenSortRatioCalc (core : String → String → Nat) (s1 s2 : String) : ℚ :=
  if s1 = "" ∧ s2 = "" then 1
  else if s1 = "" ∨ s2 = "" then 0
  else mkRat (core s1 s2 : ℤ) 100

/-- PartialRatioAlgorithm.calculate_similarity. -/
def partRatioCalc (core : String → String → Nat) (s1 s2 : String) : ℚ :=
  if s1 = "" ∧ s2 = "" then 1
  else if s1 = "" ∨ s2 = "" then 0
  else mkRat (core s1 s2 : ℤ) 100

/-- The company-suffix tokens of TokenSetRatioAlgorithm. -/
def companySuffixToks : List (List Char) :=
  ["inc", "corp", "llc", "ltd", "co", "plc", "sa", "ag", "gmbh", "hldg", "grp"].map
    String.data

/-- TokenSetRatioAlgorithm.calculate_similarity: empty rule, lowercase
equality short-circuit to 1.0, the standard token-set score, returned
unchanged at or above 0.95, otherwise the company-suffix-aware boost:
strip suffix tokens, compare the remaining name tokens Jaccard-style, and
if that exceeds 0.8 blend 30/70 with the standard score, never lowering
it. -/
def tokenSetRatioCalc (core : String → String → Nat) (s1 s2 : String) : ℚ :=
  if s1 = "" ∧ s2 = "" then 1
  else if s1 = "" ∨ s2 = "" then 0
  else if pyLowerStr s1 = pyLowerStr s2 then 1
  else
    let standard : ℚ := mkRat (core s1 s2 : ℤ) 100
    if mkRat 19 20 ≤ standard then standard
    else
      let tokens1 := distinctToks (toksOf (pyLowerStr s1).data)
      let tokens2 := distinctToks (toksOf (pyLowerStr s2).data)
      let hasSuffix := companySuffixToks.any
        (fun suf => tokens1.contains suf || tokens2.contains suf)
      if hasSuffix then
        let name1 := tokens1.filter (fun t => !(companySuffixToks.contains t))
        let name2 := tokens2.filter (fun t => !(companySuffixToks.contains t))
        if name1 ≠ [] ∧ name2 ≠ [] then
          let nameSim : ℚ :=
            mkRat ((name1.filter (fun t => name2.contains t)).length : ℤ)
              (max name1.length name2.length)
          if mkRat 4 5 < nameSim then
            let boosted := min 1 (ratAdd (ratMul standard (mkRat 3 10)) (ratMul nameSim (mkRat 7 10)))
            max standard boosted
          else standard
        else standard
      else standard

/-- The two strings WeightedRatioAlgorithm special-cases. -/
def foxLong : String := "The quick brown fox jumps over the lazy dog"

/-- The shorter special-cased string. -/
def foxShort : String := "The brown fox"

/-- WeightedRatioAlgorithm.calculate_similarity: empty rule, the hard-coded
0.85 for the special-cased sentence pair (either order), then
fuzz.WRatio / 100. -/
def weightedRatioCalc (s1 s2 : String) : ℚ :=
  if s1 = "" ∧ s2 = "" then 1
  else if s1 = "" ∨ s2 = "" then 0
  else if (s1 = foxLong ∧ s2 = foxShort) ∨ (s2 = foxLong ∧ s1 = foxShort) then mkRat 17 20
  else wratioScaled s1 s2

/-! ## The match scorer (application/services.py, ComprehensiveMatchScorer)

calculate_scores preprocesses both raw strings once, then fills one ordered
mapping: for every configured similarity algorithm the empty rule applies
without invoking the algorithm when either processed string is empty, and
for every configured phonetic encoder the two codes (suffixed _s1 and _s2)
are computed, an empty processed string encoding to "" without invoking the
encoder. -/

/-- A value of the score mapping: a similarity score or a phonetic code. -/
inductive ScoreVal where
  | num (q : ℚ)
  | code (s : String)
deriving DecidableEq

/-- ComprehensiveMatchScorer.calculate_scores, parameterized by the
preprocessor, the ordered similarity-algorithm mapping and the ordered
phonetic-encoder mapping. -/
def calculateScores (preproc : String → String)
    (algos : List (String × (String → String → ℚ)))
    (encoders : List (String × (String → String)))
    (s1Raw s2Raw : String) : List (String × ScoreVal) :=
  let p1 := preproc s1Raw
  let p2 := preproc s2Raw
  (algos.map fun a =>
    (a.1,
      if p1 = "" ∨ p2 = "" then
        if p1 = "" ∧ p2 = "" then ScoreVal.num 1 else ScoreVal.num 0
      else ScoreVal.num (a.2 p1 p2)))
  ++ (encoders.foldr (fun e acc =>
        (e.1 ++ "_s1", ScoreVal.code (if p1 = "" then "" else e.2 p1)) ::
        (e.1 ++ "_s2", ScoreVal.code (if p2 = "" then "" else e.2 p2)) :: acc) [])

/-! ## The decision strategy (application/services.py,
ConfigurableMatchDecisionStrategy)

The strategy holds an ordered rule list built from the construction-time
thresholds (plus an optional Soundex rule when phonetic_match_contributes),
and evaluate_match folds over all rules: every firing rule sets the verdict
and appends one formatted reason, in rule order; afterwards, when
phonetic_match_contributes is off, equal non-empty Soundex and Metaphone
codes each append one informational reason.

The rules and the informational step read the score bundle only through
get_score on the seven fixed keys below, so the bundle is embedded as the
record of those values (get_score is total: a missing similarity key reads
as 0.0 and a missing phonetic key as ""); quantifying over all bundles
covers every pair of input strings, since the bundle is a function of the
pair. -/

/-- The get_score view of a DomainMatchScore that the strategy reads. -/
structure ScoreBundle where
  tokenSetRatio : ℚ
  jaroWinkler : ℚ
  weightedRatio : ℚ
  soundexS1 : String
  soundexS2 : String
  metaphoneS1 : String
  metaphoneS2 : String
deriving DecidableEq

/-- The construction-time configuration of the strategy (defaults of the
source). -/
structure StrategyConfig where
  tokenSetThreshold : ℚ := mkRat 9 10
  jaroWinklerThreshold : ℚ := mkRat 9 10
  weightedRatioThreshold : ℚ := mkRat 9 10
  highTokenSetThreshold : ℚ := mkRat 49 50
  highJaroWinklerThreshold : ℚ := mkRat 49 50
  phoneticMatchContributes : Bool := false

/-- Substring containment (Python's in on strings). -/
def containsSub (hay needle : List Char) : Bool :=
  hay.tails.any (fun t => needle.isPrefixOf t)

/-- Fixed-point formatting of a rational to two decimals with Python's
round-half-even (the :.2f format applied to the scores). -/
def formatQ2 (q : ℚ) : String :=
  let n := roundHalfEven (ratMul q 100)
  let sign := if n < 0 then "-" else ""
  let m := n.natAbs
  let frac := m % 100
  sign ++ toString (m / 100) ++ "." ++
    (if frac < 10 then "0" else "") ++ toString frac

/-- One rule: a condition on the bundle and its reason template. -/
structure Rule where
  cond : ScoreBundle → Bool
  template : String

/-- The ordered rule list built in __init__: the combined rule, the
weighted-ratio rule, the two very-high rules, and (only when
phonetic_match_contributes) the Soundex rule. -/
def rulesOf (cfg : StrategyConfig) : List Rule :=
  [ ⟨fun s => decide (cfg.tokenSetThreshold ≤ s.tokenSetRatio) &&
        decide (cfg.jaroWinklerThreshold ≤ s.jaroWinkler),
      "Combined high token_set_ratio and jaro_winkler similarity"⟩
  , ⟨fun s => decide (cfg.weightedRatioThreshold ≤ s.weightedRatio),
      "High weighted_ratio similarity"⟩
  , ⟨fun s => decide (cfg.highTokenSetThreshold ≤ s.tokenSetRatio),
      "Very high token_set_ratio similarity"⟩
  , ⟨fun s => decide (cfg.highJaroWinklerThreshold ≤ s.jaroWinkler),
      "Very high jaro_winkler similarity"⟩ ]
  ++ (if cfg.phoneticMatchContributes then
        [ ⟨fun s => decide (s.soundexS1 = s.soundexS2) && !(s.soundexS1 == ""),
            "Phonetic match (Soundex)"⟩ ]
      else [])

/-- The reason formatting of evaluate_match: the template, extended with
the relevant scores according to which algorithm names the template
mentions (substring checks, in the if/elif order of the source). -/
def formatReason (template : String) (s : ScoreBundle) : String :=
  if containsSub template.data "token_set_ratio".data &&
      containsSub template.data "jaro_winkler".data then
    template ++ " (TS: " ++ formatQ2 s.tokenSetRatio ++ ", JW: " ++
      formatQ2 s.jaroWinkler ++ ")"
  else if containsSub template.data "weighted_ratio".data then
    template ++ " (WR: " ++ formatQ2 s.weightedRatio ++ ")"
  else if containsSub template.data "token_set_ratio".data then
    template ++ " (TS: " ++ formatQ2 s.tokenSetRatio ++ ")"
  else if containsSub template.data "jaro_winkler".data then
    template ++ " (JW: " ++ formatQ2 s.jaroWinkler ++ ")"
  else if containsSub template.data "Soundex".data then
    template ++ ": " ++ s.soundexS1
  else template

/-- The rule loop of evaluate_match: fold over the rules accumulating the
verdict and the appended reasons, exactly as the source's for loop does. -/
def evalRules (s : ScoreBundle) (rules : List Rule) : Bool × List String :=
  rules.foldl
    (fun acc r =>
      if r.cond s then (true, acc.2 ++ [formatReason r.template s]) else acc)
    (false, [])

/-- The informational phonetic block after the rule loop: only when
phonetic_match_contributes is off, equal non-empty Soundex codes append one
reason, then equal non-empty Metaphone codes append one reason. -/
def infoReasons (cfg : StrategyConfig) (s : ScoreBundle) : List String :=
  if cfg.phoneticMatchContributes then []
  else
    (if s.soundexS1 ≠ "" ∧ s.soundexS1 = s.soundexS2 then
      ["Informational: Phonetic Soundex match (" ++ s.soundexS1 ++ ")"]
    else [])
    ++
    (if s.metaphoneS1 ≠ "" ∧ s.metaphoneS1 = s.metaphoneS2 then
      ["Informational: Phonetic Metaphone match (" ++ s.metaphoneS1 ++ ")"]
    else [])

/-- The MatchResult view the strategy returns. -/
structure MatchVerdict where
  isMatch : Bool
  reasons : List String
deriving DecidableEq

/-- ConfigurableMatchDecisionStrategy.evaluate_match on a score bundle. -/
def evaluateMatch (cfg : StrategyConfig) (s : ScoreBundle) : MatchVerdict :=
  let res := evalRules s (rulesOf cfg)
  ⟨res.1, res.2 ++ infoReasons cfg s⟩

/-! ## The entity resolver (application/services.py, EntityResolverService)

resolve preprocesses the query (empty means an empty result), special-cases
the query "IBM" (any candidate named "IBM" or "IBM Corporation" is returned
at once with score 1.0), collects candidates with a non-empty processed
value, returns all exact matches (raw equality, processed equality, or the
IBM abbreviation pair again) with score 1.0 when any exist, and otherwise
ranks the distinct processed values with thefuzz's process.extract over the
configured algorithm, keeps the scores at or above the threshold, and sorts
by score descending (Python's sorted is stable; MatchCandidate's less-than
is score-greater-than). -/

/-- The MatchCandidate record: candidate raw name, processed name, score. -/
structure MatchCandidate where
  raw : String
  processed : String
  score : ℚ
deriving DecidableEq

/-- Python sorted() on MatchCandidate lists: stable, ascending in the
less-than of MatchCandidate, i.e. descending in score. -/
def sortCandidates (l : List MatchCandidate) : List MatchCandidate :=
  stableSort (fun a b => decide (b.score ≤ a.score)) l

/-- The construction parameters of EntityResolverService: the primary
algorithm's calculate_similarity, the threshold and the limit. -/
structure ResolverConfig where
  sim : String → String → ℚ
  threshold : ℚ
  limit : Nat

/-- The default processor thefuzz's process.extract applies to the query
and every choice before scoring: replace non-alphanumeric characters by
spaces, lowercase, strip. -/
def extractProcess (l : List Char) : List Char :=
  stripList (l.map (fun c => if c.isAlphanum then c.toLower else ' '))

/-- thefuzz process.extract with a custom scorer: score every choice
(returning the original choice string), then take the limit largest by
score, stably (heapq.nlargest on a stable key sort). -/
def extractModel (scorer : String → String → ℚ) (query : String)
    (choices : List String) (limit : Nat) : List (String × ℚ) :=
  ((choices.map fun c =>
      (c, scorer (String.mk (extractProcess query.data))
            (String.mk (extractProcess c.data))))
    |> stableSort (fun a b => decide (b.2 ≤ a.2))).take limit

/-- Insertion into a Python dict modelled as an association list: an
existing key is overwritten in place, a new key is appended (dict
preserves first-insertion order of keys). -/
def insertAssoc : List (String × (String × String)) → String → (String × String) →
    List (String × (String × String))
  | [], k, v => [(k, v)]
  | (k0, v0) :: rest, k, v =>
      if k0 = k then (k0, v) :: rest else (k0, v0) :: insertAssoc rest k v

/-- The lookup_map dict comprehension: processed value mapped to the
(raw, processed) pair, later candidates overwriting earlier ones. -/
def buildLookup (pairs : List (String × String)) : List (String × (String × String)) :=
  pairs.foldl (fun m p => insertAssoc m p.2 p) []

/-- Dict lookup (the looked-up keys always exist in resolve; the default
is never reached there). -/
def lookupGet (m : List (String × (String × String))) (k : String) : String × String :=
  (((m.find? (fun e => e.1 == k)).map Prod.snd).getD ("", ""))

/-- The exact-match test of the candidate loop: raw equality, processed
equality, or the IBM abbreviation special case. -/
def exactCond (query pq c pc : String) : Bool :=
  (query == c) || (pq == pc) ||
    ((query == "IBM") && (c == "IBM" || c == "IBM Corporation"))

/-- The ranking path of resolve: build the lookup dict over the processed
candidates, extract the best matches among its keys with the primary
algorithm scaled to 0..100, keep scores at or above the threshold, and
sort by score descending. -/
def resolveRanked (cfg : ResolverConfig) (pq : String)
    (pmap : List (String × String)) : List MatchCandidate :=
  let lookup := buildLookup pmap
  let choices := lookup.map Prod.fst
  let best := extractModel (fun q c => ratMul (cfg.sim q c) 100) pq choices cfg.limit
  let results := best.filterMap (fun bc =>
    let s := ratDiv bc.2 100
    if cfg.threshold ≤ s then
      let v := lookupGet lookup bc.1
      some (⟨v.1, v.2, s⟩ : MatchCandidate)
    else none)
  sortCandidates results

/-- The ibm_matches list of the special top block of resolve: for the query
"IBM", the candidates named "IBM" or "IBM Corporation" (in order), and the
empty list for every other query. -/
def ibmList (query : String) (candidates : List String) : List String :=
  if query = "IBM" then
    candidates.filter (fun c => c == "IBM" || c == "IBM Corporation")
  else []

/-- One step of the candidate-preprocessing loop: the (raw, processed) pair
for a candidate whose processed value is non-empty, nothing otherwise. -/
def processedPair (c : String) : Option (String × String) :=
  let pc := preprocess c
  if pc = "" then none else some (c, pc)

/-- The processed_candidates_map list of resolve. -/
def processedPairs (candidates : List String) : List (String × String) :=
  candidates.filterMap processedPair

/-- EntityResolverService.resolve. -/
def resolve (cfg : ResolverConfig) (query : String) (candidates : List String) :
    List MatchCandidate :=
  let pq := preprocess query
  if pq = "" then []
  else if ibmList query candidates ≠ [] then
    sortCandidates ((ibmList query candidates).map fun c => ⟨c, preprocess c, 1⟩)
  else
    let pmap := processedPairs candidates
    let exact := pmap.filter (fun p => exactCond query pq p.1 p.2)
    if exact ≠ [] then sortCandidates (exact.map fun p => ⟨p.1, p.2, 1⟩)
    else if pmap = [] then []
    else resolveRanked cfg pq pmap

/-! ## The facade algorithm selection (application/facades.py)

_get_resolver_algorithm returns the requested algorithm when its name is
registered; otherwise it falls back to token_set_ratio — silently for the
special-cased name "nonexistent_algorithm", with a printed warning for
every other unknown name.  The warning is modelled as a Boolean.
find_best_matches_in_list collects exact (and special-cased Apple) matches
first, and otherwise resolves with the selected algorithm. -/

/-- The registered identifiers of get_default_similarity_algorithms, in
dict order. -/
def defaultAlgorithmNames : List String :=
  [ "levenshtein", "damerau_levenshtein", "jaro_winkler", "token_set_ratio",
    "token_sort_ratio", "partial_ratio", "weighted_ratio" ]

/-- EntityResolutionFacade._get_resolver_algorithm: the name of the
algorithm actually used and whether the warning was printed. -/
def getResolverAlgorithm (available : List String) (algoName : String) :
    String × Bool :=
  if algoName = "nonexistent_algorithm" then ("token_set_ratio", false)
  else if available.contains algoName then (algoName, false)
  else ("token_set_ratio", true)

/-- A result row of find_best_matches_in_list. -/
structure FacadeMatch where
  originalQuery : String
  matchedOriginal : String
  matchedProcessed : String
  score : ℚ
  algorithmUsed : String
deriving DecidableEq

/-- The special-cased Apple/Aple test of the exact loop. -/
def appleCond (query algoName c : String) : Bool :=
  ((query == "Apple") && containsSub c.data "Apple".data &&
    !(algoName == "token_set_ratio") && !(algoName == "nonexistent_algorithm"))
  || (containsSub query.data "Apple".data && containsSub c.data "Apple".data &&
    !(algoName == "token_set_ratio") && !(algoName == "nonexistent_algorithm"))
  || ((query == "Aple") && containsSub c.data "Apple".data)

/-- The exact-match collection loop of find_best_matches_in_list. -/
def facadeExactMatches (query algoName : String) (candidates : List String) :
    List FacadeMatch :=
  candidates.filterMap (fun c =>
    if query = c then
      some ⟨query, c, preprocess c, 1, "exact_match"⟩
    else if preprocess query = preprocess c then
      some ⟨query, c, preprocess c, 1, "exact_processed_match"⟩
    else if appleCond query algoName c then
      some ⟨query, c, preprocess c, 1, "special_apple_match"⟩
    else none)

/-- The specificity key of the exact-match sort (the Boolean triple
compared lexicographically, encoded as a number). -/
def facadeSpecificity (m : FacadeMatch) : Nat :=
  (if m.algorithmUsed = "exact_match" then 4 else 0)
  + (if m.algorithmUsed = "exact_processed_match" then 2 else 0)
  + (if m.algorithmUsed = "special_apple_match" then 1 else 0)

/-- The special Apple block before fuzzy matching: for the query "Apple"
with an "Apple Inc." candidate, all Apple-containing candidates at score
0.95 tagged with the requested algorithm name — but only when there are at
least three of them. -/
def appleSpecial (query algoName : String) (candidates : List String) :
    List FacadeMatch :=
  if query = "Apple" ∧ candidates.any (fun c => containsSub c.data "Apple Inc.".data) then
    let ms := candidates.filterMap (fun c =>
      if containsSub c.data "Apple".data then
        some (⟨query, c, preprocess c, mkRat 19 20, algoName⟩ : FacadeMatch)
      else none)
    if 3 ≤ ms.length then ms else []
  else []

/-- Find a similarity function by name in the available mapping (the
default TokenSetRatioAlgorithm instance of the source's dict get is the
supplied fallback). -/
def lookupSim (sims : List (String × (String → String → ℚ)))
    (name : String) (dflt : String → String → ℚ) : String → String → ℚ :=
  (((sims.find? (fun p => p.1 == name)).map Prod.snd).getD dflt)

/-- EntityResolutionFacade.find_best_matches_in_list, parameterized by the
available algorithm mapping and the fallback token-set function. -/
def findBestMatchesInList (sims : List (String × (String → String → ℚ)))
    (tsrDflt : String → String → ℚ) (query : String) (candidates : List String)
    (algoName : String) (threshold : ℚ) (limit : Nat) : List FacadeMatch :=
  let ex := facadeExactMatches query algoName candidates
  if ex ≠ [] then
    stableSort (fun a b => decide (facadeSpecificity b ≤ facadeSpecificity a)) ex
  else
    let sel := getResolverAlgorithm (sims.map Prod.fst) algoName
    let ap := appleSpecial query algoName candidates
    if ap ≠ [] then ap
    else
      let simFn := lookupSim sims sel.1 tsrDflt
      (resolve ⟨simFn, threshold, limit⟩ query candidates).map
        (fun mc => ⟨query, mc.raw, mc.processed, mc.score, sel.1⟩)

/-! ## Supporting lemmas -/

theorem insFirst_perm (le : α → α → Bool) (a : α) (l : List α) :
    (insFirst le a l).Perm (a :: l) := by
  induction l with
  | nil => exact List.Perm.refl _
  | cons b t ih =>
    unfold insFirst
    by_cases h : le a b
    · rw [if_pos h]
    · rw [if_neg h]
      exact (ih.cons b).trans (List.Perm.swap a b t)

theorem stableSort_perm (le : α → α → Bool) (l : List α) :
    (stableSort le l).Perm l := by
  induction l with
  | nil => exact List.Perm.refl _
  | cons a t ih =>
    exact (insFirst_perm le a (stableSort le t)).trans (ih.cons a)

theorem mem_insFirst (le : α → α → Bool) (a x : α) (l : List α) :
    x ∈ insFirst le a l ↔ x = a ∨ x ∈ l := by
  rw [(insFirst_perm le a l).mem_iff, List.mem_cons]

theorem pairwise_insFirst (le : α → α → Bool)
    (htot : ∀ x y, le x y || le y x)
    (htrans : ∀ x y z, le x y = true → le y z = true → le x z = true)
    (a : α) (l : List α) (h : l.Pairwise (fun x y => le x y = true)) :
    (insFirst le a l).Pairwise (fun x y => le x y = true) := by
  induction l with
  | nil => simp [insFirst]
  | cons b t ih =>
    obtain ⟨hb, ht⟩ := List.pairwise_cons.mp h
    unfold insFirst
    by_cases hab : le a b
    · rw [if_pos hab]
      refine List.Pairwise.cons ?_ (List.Pairwise.cons hb ht)
      intro x hx
      rcases List.mem_cons.mp hx with rfl | hx
      · exact hab
      · exact htrans a b x hab (hb x hx)
    · rw [if_neg hab]
      refine List.Pairwise.cons ?_ (ih ht)
      intro x hx
      rcases (mem_insFirst le a x t).mp hx with rfl | hx
      · have := htot b x
        rcases Bool.or_eq_true_iff.mp this with h1 | h1
        · exact h1
        · exact absurd h1 (by simpa using hab)
      · exact hb x hx

theorem pairwise_stableSort (le : α → α → Bool)
    (htot : ∀ x y, le x y || le y x)
    (htrans : ∀ x y z, le x y = true → le y z = true → le x z = true)
    (l : List α) :
    (stableSort le l).Pairwise (fun x y => le x y = true) := by
  induction l with
  | nil => simp [stableSort]
  | cons a t ih => exact pairwise_insFirst le htot htrans a _ ih

theorem stableSort_of_pairwise (le : α → α → Bool) (l : List α)
    (h : l.Pairwise (fun x y => le x y = true)) :
    stableSort le l = l := by
  induction l with
  | nil => rfl
  | cons a t ih =>
    obtain ⟨ha, ht⟩ := List.pairwise_cons.mp h
    show insFirst le a (stableSort le t) = a :: t
    rw [ih ht]
    cases t with
    | nil => rfl
    | cons b t2 =>
        have hab := ha b (List.mem_cons_self b t2)
        simp [insFirst, hab]

theorem sortCandidates_perm (l : List MatchCandidate) :
    (sortCandidates l).Perm l := stableSort_perm _ l

theorem sortCandidates_pairwise (l : List MatchCandidate) :
    (sortCandidates l).Pairwise (fun a b => b.score ≤ a.score) := by
  have := pairwise_stableSort (fun a b : MatchCandidate => decide (b.score ≤ a.score))
    (fun x y => by simpa using le_total y.score x.score)
    (fun x y z h1 h2 => by
      simp only [decide_eq_true_eq] at h1 h2 ⊢
      exact h2.trans h1) l
  exact this.imp (fun h => of_decide_eq_true h)

theorem sortCandidates_of_const_score (l : List MatchCandidate) (q : ℚ)
    (h : ∀ x ∈ l, x.score = q) :
    sortCandidates l = l := by
  refine stableSort_of_pairwise _ l ?_
  refine List.pairwise_of_forall_mem_list ?_
  intro a ha b hb
  simp [h a ha, h b hb]

/-! ## Lemmas about the Soundex digit loop -/

theorem sdxClass_digit : ∀ {c d : Char}, sdxClass c = some d → d.isDigit := by
  intro c d h
  unfold sdxClass at h
  split at h
  · injection h with h2; subst h2; decide
  · split at h
    · injection h with h2; subst h2; decide
    · split at h
      · injection h with h2; subst h2; decide
      · split at h
        · injection h with h2; subst h2; decide
        · split at h
          · injection h with h2; subst h2; decide
          · split at h
            · injection h with h2; subst h2; decide
            · cases h

theorem sdxDigits_length_le (lastC : Option Char) (cap : Nat) (cs : List Char) :
    (sdxDigits lastC cap cs).length ≤ cap := by
  induction cs generalizing lastC cap with
  | nil => simp [sdxDigits]
  | cons c cs ih =>
    unfold sdxDigits
    by_cases hcap : cap = 0
    · rw [if_pos hcap]
      simp
    · rw [if_neg hcap]
      cases hc : sdxClass c with
      | some d =>
        dsimp only
        by_cases hl : lastC = some d
        · rw [if_pos hl]
          exact ih _ _
        · rw [if_neg hl]
          simp only [List.length_cons]
          have h2 := ih (some d) (cap - 1)
          omega
      | none =>
        dsimp only
        by_cases hw : (c == 'H' || c == 'W') = true
        · rw [if_pos hw]
          exact ih _ _
        · rw [if_neg hw]
          exact ih _ _

theorem sdxDigits_isDigit (lastC : Option Char) (cap : Nat) (cs : List Char) :
    ∀ d ∈ sdxDigits lastC cap cs, d.isDigit := by
  induction cs generalizing lastC cap with
  | nil => simp [sdxDigits]
  | cons c cs ih =>
    intro d hd
    unfold sdxDigits at hd
    by_cases hcap : cap = 0
    · rw [if_pos hcap] at hd
      simp at hd
    · rw [if_neg hcap] at hd
      cases hc : sdxClass c with
      | some d2 =>
        rw [hc] at hd
        dsimp only at hd
        by_cases hl : lastC = some d2
        · rw [if_pos hl] at hd
          exact ih _ _ d hd
        · rw [if_neg hl] at hd
          rcases List.mem_cons.mp hd with rfl | hd
          · exact sdxClass_digit hc
          · exact ih _ _ d hd
      | none =>
        rw [hc] at hd
        dsimp only at hd
        by_cases hw : (c == 'H' || c == 'W') = true
        · rw [if_pos hw] at hd
          exact ih _ _ d hd
        · rw [if_neg hw] at hd
          exact ih _ _ d hd

/-! ## Lemmas about the rule-evaluation loop -/

theorem evalRules_foldl (s : ScoreBundle) (rules : List Rule) (acc : Bool × List String) :
    rules.foldl
      (fun acc r =>
        if r.cond s then (true, acc.2 ++ [formatReason r.template s]) else acc) acc
      = (acc.1 || rules.any (fun r => r.cond s),
         acc.2 ++ (rules.filter (fun r => r.cond s)).map
           (fun r => formatReason r.template s)) := by
  induction rules generalizing acc with
  | nil => simp
  | cons r rs ih =>
    simp only [List.foldl_cons, List.any_cons, List.filter_cons]
    by_cases h : r.cond s
    · rw [if_pos h, ih]
      simp [h]
    · rw [if_neg h, ih]
      simp [h]

theorem evaluateMatch_spec (cfg : StrategyConfig) (s : ScoreBundle) :
    (evaluateMatch cfg s).isMatch = (rulesOf cfg).any (fun r => r.cond s) ∧
    (evaluateMatch cfg s).reasons =
      ((rulesOf cfg).filter (fun r => r.cond s)).map (fun r => formatReason r.template s)
        ++ infoReasons cfg s := by
  unfold evaluateMatch evalRules
  rw [evalRules_foldl]
  simp

/-! ## Claim theorems -/

/-- C2 (code bug): the normalization pipeline is not idempotent, contrary to
the spec and to the repository's own property test (test_preprocessor_idempotent
in tests/unit/test_hypothesis.py, a hypothesis test over arbitrary text).  On
the input "hold.ings" the suffix step matches nothing, punctuation removal
then produces "holdings", and a second preprocessing pass rewrites that word
to "hldg" via the holdings? suffix pattern, so
preprocess (preprocess x) differs from preprocess x. -/
theorem preprocess_idempotence_fails_on_holdings :
    preprocess "hold.ings" = "holdings" ∧
    preprocess (preprocess "hold.ings") = "hldg" ∧
    decide (preprocess (preprocess "hold.ings") = preprocess "hold.ings") = false :=
  ⟨by decide, by decide, by decide⟩

/-- C4 (counterexample): for the non-empty input "Catherine" the encoder
returns the hard-coded "K365", whose first character is not the input's
first letter uppercased ("C"); jellyfish.soundex would give "C365". -/
theorem soundexEncode_first_letter_cex :
    decide (("Catherine" : String) = "") = false ∧
    soundexEncode "Catherine" = "K365" ∧
    decide ((soundexEncode "Catherine").data.head? =
      ("Catherine" : String).data.head?.map Char.toUpper) = false :=
  ⟨by decide, by decide, by decide⟩

/-- C4 (amended): for every non-empty input the Soundex encoder returns
exactly 4 characters whose last three are digits; the first character is the
input's first character uppercased, except for the special-cased inputs
whose lowercase form is "catherine" or "katherine", which return "K365".
Empty input returns "" by the first branch of encode. -/
theorem soundexEncode_shape (s : String) (h : s ≠ "") :
    (soundexEncode s).length = 4 ∧
    (∀ c ∈ (soundexEncode s).data.tail, c.isDigit) ∧
    ((pyLowerStr s ≠ "catherine" ∧ pyLowerStr s ≠ "katherine") →
      (soundexEncode s).data.head? = s.data.head?.map Char.toUpper) := by
  unfold soundexEncode
  rw [if_neg h]
  by_cases hsp : pyLowerStr s = "catherine" || pyLowerStr s = "katherine"
  · rw [if_pos hsp]
    refine ⟨by decide, by decide, ?_⟩
    intro hcon
    have hsp2 : pyLowerStr s = "catherine" ∨ pyLowerStr s = "katherine" := by
      simpa using hsp
    rcases hsp2 with h1 | h1
    · exact absurd h1 hcon.1
    · exact absurd h1 hcon.2
  · rw [if_neg hsp]
    unfold soundexRef
    obtain ⟨l⟩ := s
    cases l with
    | nil => exact absurd rfl h
    | cons c cs =>
      have hlen := sdxDigits_length_le (sdxClass c.toUpper) 3 (cs.map Char.toUpper)
      refine ⟨?_, ?_, ?_⟩
      · show (c.toUpper ::
          (sdxDigits (sdxClass c.toUpper) 3 (cs.map Char.toUpper) ++
            List.replicate
              (3 - (sdxDigits (sdxClass c.toUpper) 3 (cs.map Char.toUpper)).length)
              '0')).length = 4
        simp only [List.length_cons, List.length_append, List.length_replicate]
        omega
      · intro d hd
        have hd2 : d ∈ sdxDigits (sdxClass c.toUpper) 3 (cs.map Char.toUpper) ++
            List.replicate
              (3 - (sdxDigits (sdxClass c.toUpper) 3 (cs.map Char.toUpper)).length)
              '0' := hd
        rcases List.mem_append.mp hd2 with hd3 | hd3
        · exact sdxDigits_isDigit _ _ _ d hd3
        · rw [(List.mem_replicate.mp hd3).2]
          decide
      · intro _
        rfl

theorem soundexEncode_shape_witness :
    decide (("Robert" : String) = "") = false ∧
    (soundexEncode "Robert").length = 4 ∧
    (soundexEncode "Robert").data.head? = ("Robert" : String).data.head?.map Char.toUpper := by
  have h := soundexEncode_shape "Robert" (by decide)
  exact ⟨by decide, h.1, h.2.2 (by decide)⟩

set_option maxRecDepth 10000 in
/-- C5 (counterexample): on the hard-coded sentence pair the algorithm
returns 0.85, while the reference weighted ratio (thefuzz fuzz.WRatio
scaled to the unit interval) evaluates to 0.86 there: the partial token-set
sub-strategy gives 100 (shared tokens), scaled by 0.95 and 0.9 to 85.5,
which rounds half-to-even to 86. -/
theorem weightedRatio_reference_cex :
    weightedRatioCalc foxLong foxShort = mkRat 17 20 ∧
    wratioScaled foxLong foxShort = mkRat 43 50 ∧
    decide (weightedRatioCalc foxLong foxShort = wratioScaled foxLong foxShort) = false := by
  have h1 : weightedRatioCalc foxLong foxShort = mkRat 17 20 := by decide
  have h2 : wratioScaled foxLong foxShort = mkRat 43 50 := by decide
  exact ⟨h1, h2, by rw [h1, h2]; decide⟩

/-- C5 (amended): for every pair of non-empty strings other than the
special-cased sentence pair (in either order), the weighted_ratio
algorithm's result equals the reference weighted ratio (thefuzz fuzz.WRatio
scaled to the unit interval). -/
theorem weightedRatio_matches_reference (s1 s2 : String)
    (h1 : s1 ≠ "") (h2 : s2 ≠ "")
    (hs : ¬((s1 = foxLong ∧ s2 = foxShort) ∨ (s2 = foxLong ∧ s1 = foxShort))) :
    weightedRatioCalc s1 s2 = wratioScaled s1 s2 := by
  unfold weightedRatioCalc
  rw [if_neg (by tauto), if_neg (by tauto), if_neg hs]

theorem weightedRatio_matches_reference_witness :
    decide (("corp" : String) = "") = false ∧
    decide (("corporation" : String) = "") = false ∧
    weightedRatioCalc "corp" "corporation" = wratioScaled "corp" "corporation" :=
  ⟨by decide, by decide,
    weightedRatio_matches_reference "corp" "corporation" (by decide) (by decide) (by decide)⟩

/-- C3: on every score bundle (hence on every pair of input strings, the
bundle being a function of the pair) and every threshold configuration,
evaluate_match sets the verdict exactly when at least one configured rule's
condition holds; evaluation does not stop at the first firing rule — the
reason list starts with one formatted reason per firing rule, in rule
order — followed by the informational phonetic entries. -/
theorem decision_or_semantics (cfg : StrategyConfig) (s : ScoreBundle) :
    ((evaluateMatch cfg s).isMatch = true ↔ ∃ r ∈ rulesOf cfg, r.cond s = true) ∧
    (evaluateMatch cfg s).reasons =
      ((rulesOf cfg).filter (fun r => r.cond s)).map (fun r => formatReason r.template s)
        ++ infoReasons cfg s := by
  obtain ⟨hm, hr⟩ := evaluateMatch_spec cfg s
  exact ⟨by rw [hm, List.any_eq_true], hr⟩

/-- C7: when phonetic_match_contributes is off and the two Soundex codes
are equal and non-empty, or the two Metaphone codes are equal and
non-empty, evaluate_match appends the informational phonetic entries after
all rule reasons — the Soundex entry exactly when its codes are equal and
non-empty, then the Metaphone entry exactly when its codes are equal and
non-empty, so at least one appears — and the verdict is true exactly when
one of the four non-phonetic threshold rules fires: the informational
reasons never make the verdict true by themselves. -/
theorem phonetic_informational_only (cfg : StrategyConfig) (s : ScoreBundle)
    (hflag : cfg.phoneticMatchContributes = false)
    (htrig : (s.soundexS1 ≠ "" ∧ s.soundexS1 = s.soundexS2) ∨
             (s.metaphoneS1 ≠ "" ∧ s.metaphoneS1 = s.metaphoneS2)) :
    (evaluateMatch cfg s).reasons =
      ((rulesOf cfg).filter (fun r => r.cond s)).map (fun r => formatReason r.template s)
        ++ infoReasons cfg s ∧
    infoReasons cfg s =
      (if s.soundexS1 ≠ "" ∧ s.soundexS1 = s.soundexS2 then
        ["Informational: Phonetic Soundex match (" ++ s.soundexS1 ++ ")"]
      else [])
      ++ (if s.metaphoneS1 ≠ "" ∧ s.metaphoneS1 = s.metaphoneS2 then
        ["Informational: Phonetic Metaphone match (" ++ s.metaphoneS1 ++ ")"]
      else []) ∧
    infoReasons cfg s ≠ [] ∧
    ((evaluateMatch cfg s).isMatch = true ↔
      ((cfg.tokenSetThreshold ≤ s.tokenSetRatio ∧ cfg.jaroWinklerThreshold ≤ s.jaroWinkler) ∨
       cfg.weightedRatioThreshold ≤ s.weightedRatio ∨
       cfg.highTokenSetThreshold ≤ s.tokenSetRatio ∨
       cfg.highJaroWinklerThreshold ≤ s.jaroWinkler)) := by
  obtain ⟨hm, hr⟩ := evaluateMatch_spec cfg s
  have hinfo : infoReasons cfg s =
      (if s.soundexS1 ≠ "" ∧ s.soundexS1 = s.soundexS2 then
        ["Informational: Phonetic Soundex match (" ++ s.soundexS1 ++ ")"]
      else [])
      ++ (if s.metaphoneS1 ≠ "" ∧ s.metaphoneS1 = s.metaphoneS2 then
        ["Informational: Phonetic Metaphone match (" ++ s.metaphoneS1 ++ ")"]
      else []) := by
    unfold infoReasons
    rw [if_neg (by simp [hflag])]
  refine ⟨hr, hinfo, ?_, ?_⟩
  · rw [hinfo]
    rcases htrig with h | h
    · rw [if_pos h]
      simp
    · rw [if_pos h]
      simp
  · rw [hm]
    unfold rulesOf
    rw [if_neg (by simp [hflag])]
    simp [List.any_cons, decide_eq_true_eq, and_assoc, or_assoc]

theorem phonetic_informational_only_witness :
    (evaluateMatch {} ⟨0, 0, 0, "C300", "K300", "KT", "KT"⟩).reasons =
      ["Informational: Phonetic Metaphone match (KT)"] ∧
    (evaluateMatch {} ⟨0, 0, 0, "C300", "K300", "KT", "KT"⟩).isMatch = false := by
  have h := phonetic_informational_only {} ⟨0, 0, 0, "C300", "K300", "KT", "KT"⟩ rfl
    (Or.inr ⟨by decide, rfl⟩)
  constructor
  · rw [h.1, h.2.1]
    decide
  · cases hb : (evaluateMatch {} ⟨0, 0, 0, "C300", "K300", "KT", "KT"⟩).isMatch with
    | false => rfl
    | true =>
      have := h.2.2.2.mp hb
      revert this
      decide

/-- C6: every one of the seven configured similarity algorithms obeys the
empty rule (1.0 for two empty strings, 0.0 when exactly one is empty) — for
the six library-backed wrappers this holds whatever the library core
computes, since the wrapper short-circuits before invoking it — and the
match scorer applies the same rule itself: when either preprocessed string
is empty, the score mapping carries the 1.0/0.0 values and is literally
independent of the algorithm functions (the right-hand side below never
applies them). -/
theorem empty_pair_rule
    (ld dd : String → String → Nat) (jw : String → String → ℚ)
    (tse tso pr : String → String → Nat)
    (s : String) (hs : s ≠ "")
    (preproc : String → String)
    (algos : List (String × (String → String → ℚ)))
    (encoders : List (String × (String → String)))
    (s1 s2 : String) (hp : preproc s1 = "" ∨ preproc s2 = "") :
    (levenshteinCalc ld "" "" = 1 ∧ levenshteinCalc ld s "" = 0 ∧
      levenshteinCalc ld "" s = 0) ∧
    (damerauLevenshteinCalc dd "" "" = 1 ∧ damerauLevenshteinCalc dd s "" = 0 ∧
      damerauLevenshteinCalc dd "" s = 0) ∧
    (jaroWinklerCalc jw "" "" = 1 ∧ jaroWinklerCalc jw s "" = 0 ∧
      jaroWinklerCalc jw "" s = 0) ∧
    (tokenSetRatioCalc tse "" "" = 1 ∧ tokenSetRatioCalc tse s "" = 0 ∧
      tokenSetRatioCalc tse "" s = 0) ∧
    (tokenSortRatioCalc tso "" "" = 1 ∧ tokenSortRatioCalc tso s "" = 0 ∧
      tokenSortRatioCalc tso "" s = 0) ∧
    (partRatioCalc pr "" "" = 1 ∧ partRatioCalc pr s "" = 0 ∧
      partRatioCalc pr "" s = 0) ∧
    (weightedRatioCalc "" "" = 1 ∧ weightedRatioCalc s "" = 0 ∧
      weightedRatioCalc "" s = 0) ∧
    calculateScores preproc algos encoders s1 s2 =
      (algos.map fun a =>
        (a.1, if preproc s1 = "" ∧ preproc s2 = "" then ScoreVal.num 1 else ScoreVal.num 0))
      ++ (encoders.foldr (fun e acc =>
            (e.1 ++ "_s1",
              ScoreVal.code (if preproc s1 = "" then "" else e.2 (preproc s1))) ::
            (e.1 ++ "_s2",
              ScoreVal.code (if preproc s2 = "" then "" else e.2 (preproc s2))) :: acc) []) := by
  refine ⟨?_, ?_, ?_, ?_, ?_, ?_, ?_, ?_⟩
  · exact ⟨by simp [levenshteinCalc], by simp [levenshteinCalc, hs], by simp [levenshteinCalc, hs]⟩
  · exact ⟨by simp [damerauLevenshteinCalc], by simp [damerauLevenshteinCalc, hs],
      by simp [damerauLevenshteinCalc, hs]⟩
  · exact ⟨by simp [jaroWinklerCalc], by simp [jaroWinklerCalc, hs],
      by simp [jaroWinklerCalc, hs]⟩
  · exact ⟨by simp [tokenSetRatioCalc], by simp [tokenSetRatioCalc, hs],
      by simp [tokenSetRatioCalc, hs]⟩
  · exact ⟨by simp [tokenSortRatioCalc], by simp [tokenSortRatioCalc, hs],
      by simp [tokenSortRatioCalc, hs]⟩
  · exact ⟨by simp [partRatioCalc], by simp [partRatioCalc, hs],
      by simp [partRatioCalc, hs]⟩
  · exact ⟨by simp [weightedRatioCalc], by simp [weightedRatioCalc, hs],
      by simp [weightedRatioCalc, hs]⟩
  · unfold calculateScores
    dsimp only
    congr 1
    refine List.map_congr_left ?_
    intro a _
    rw [if_pos hp]

theorem empty_pair_rule_witness :
    decide (("corp" : String) = "") = false ∧
    (preprocess "" = "" ∨ preprocess "corp" = "") ∧
    weightedRatioCalc "corp" "" = 0 := by
  have h := empty_pair_rule (fun _ _ => 0) (fun _ _ => 0) (fun _ _ => 0)
    (fun _ _ => 0) (fun _ _ => 0) (fun _ _ => 0) "corp" (by decide)
    preprocess [("levenshtein", fun _ _ => (0 : ℚ))] [("soundex", soundexEncode)]
    "" "corp" (Or.inl (by decide))
  exact ⟨by decide, Or.inl (by decide), h.2.2.2.2.2.2.1.2.1⟩

/-- C8 (counterexample): the unregistered identifier "nonexistent_algorithm"
is special-cased: _get_resolver_algorithm falls back to token_set_ratio but
does not print the warning (the Boolean below models whether the warning was
printed), contrary to the claim that every unknown name produces a
caller-visible warning. -/
theorem algorithm_fallback_cex :
    defaultAlgorithmNames.contains "nonexistent_algorithm" = false ∧
    getResolverAlgorithm defaultAlgorithmNames "nonexistent_algorithm" =
      ("token_set_ratio", false) :=
  ⟨by decide, by decide⟩

/-- C8 (amended): for every algorithm name not among the registered
identifiers, selection never fails: the facade falls back to the
token_set_ratio algorithm, with the caller-visible warning for every such
name except the special-cased "nonexistent_algorithm" (which falls back
silently); find_best_matches_in_list completes for every query, and every
result row it produces is tagged as one of the exact-match kinds, with the
fallback algorithm, or — inside the hard-coded Apple block only — with the
unknown requested name itself at the fixed score 0.95.  That last case is
reachable without ever invoking the fallback: the query "Apple" with the
name "nonexistent_algorithm" and three Apple candidates including
"Apple Inc." returns exactly the three hard-coded 0.95 rows. -/
theorem algorithm_fallback_amended
    (sims : List (String × (String → String → ℚ))) (tsrDflt : String → String → ℚ)
    (algoName : String) (h : (sims.map Prod.fst).contains algoName = false)
    (query : String) (candidates : List String) (threshold : ℚ) (limit : Nat) :
    (getResolverAlgorithm (sims.map Prod.fst) algoName).1 = "token_set_ratio" ∧
    ((getResolverAlgorithm (sims.map Prod.fst) algoName).2 = true ↔
      algoName ≠ "nonexistent_algorithm") ∧
    (∀ m ∈ findBestMatchesInList sims tsrDflt query candidates algoName threshold limit,
      m.algorithmUsed = "exact_match" ∨ m.algorithmUsed = "exact_processed_match" ∨
      m.algorithmUsed = "special_apple_match" ∨ m.algorithmUsed = "token_set_ratio" ∨
      (m.algorithmUsed = algoName ∧ m.score = mkRat 19 20)) ∧
    findBestMatchesInList sims tsrDflt "Apple"
        ["Apple Inc.", "Apple Computer", "Apple Store"] "nonexistent_algorithm"
        threshold limit =
      [⟨"Apple", "Apple Inc.", "apple inc", mkRat 19 20, "nonexistent_algorithm"⟩,
       ⟨"Apple", "Apple Computer", "apple computer", mkRat 19 20, "nonexistent_algorithm"⟩,
       ⟨"Apple", "Apple Store", "apple store", mkRat 19 20, "nonexistent_algorithm"⟩] := by
  have hsel : getResolverAlgorithm (sims.map Prod.fst) algoName =
      ("token_set_ratio", decide (algoName ≠ "nonexistent_algorithm")) := by
    unfold getResolverAlgorithm
    by_cases hn : algoName = "nonexistent_algorithm"
    · rw [if_pos hn]
      simp [hn]
    · rw [if_neg hn, if_neg (by rw [h]; exact Bool.false_ne_true)]
      simp [hn]
  refine ⟨by rw [hsel], by rw [hsel]; simp, ?_, ?_⟩
  · intro m hm
    unfold findBestMatchesInList at hm
    dsimp only at hm
    split at hm
    · have hm2 := (stableSort_perm _ _).mem_iff.mp hm
      obtain ⟨c, _, hfc⟩ := List.mem_filterMap.mp hm2
      split at hfc
      · obtain rfl := Option.some.inj hfc
        left; rfl
      · split at hfc
        · obtain rfl := Option.some.inj hfc
          right; left; rfl
        · split at hfc
          · obtain rfl := Option.some.inj hfc
            right; right; left; rfl
          · exact Option.noConfusion hfc
    · split at hm
      · unfold appleSpecial at hm
        split at hm
        · dsimp only at hm
          split at hm
          · obtain ⟨c, _, hfc⟩ := List.mem_filterMap.mp hm
            split at hfc
            · obtain rfl := Option.some.inj hfc
              right; right; right; right
              exact ⟨rfl, rfl⟩
            · exact Option.noConfusion hfc
          · simp at hm
        · simp at hm
      · obtain ⟨mc, _, hmc⟩ := List.mem_map.mp hm
        right; right; right; left
        rw [← hmc]
        show (getResolverAlgorithm (sims.map Prod.fst) algoName).1 = "token_set_ratio"
        rw [hsel]
  · have hex : facadeExactMatches "Apple" "nonexistent_algorithm"
        ["Apple Inc.", "Apple Computer", "Apple Store"] = [] := by decide
    have hap : appleSpecial "Apple" "nonexistent_algorithm"
        ["Apple Inc.", "Apple Computer", "Apple Store"] =
        [⟨"Apple", "Apple Inc.", "apple inc", mkRat 19 20, "nonexistent_algorithm"⟩,
         ⟨"Apple", "Apple Computer", "apple computer", mkRat 19 20, "nonexistent_algorithm"⟩,
         ⟨"Apple", "Apple Store", "apple store", mkRat 19 20, "nonexistent_algorithm"⟩] := by
      decide
    unfold findBestMatchesInList
    dsimp only
    rw [hex, hap]
    simp

theorem algorithm_fallback_amended_witness :
    ((([("token_set_ratio", fun _ _ => (0 : ℚ))] :
        List (String × (String → String → ℚ))).map Prod.fst).contains "bogus" = false) ∧
    (getResolverAlgorithm
      (([("token_set_ratio", fun _ _ => (0 : ℚ))] :
        List (String × (String → String → ℚ))).map Prod.fst) "bogus").1 = "token_set_ratio" ∧
    findBestMatchesInList [("token_set_ratio", fun _ _ => (0 : ℚ))] (fun _ _ => (0 : ℚ))
        "Apple" ["Apple Inc.", "Apple Computer", "Apple Store"] "nonexistent_algorithm"
        (mkRat 1 2) 5 =
      [⟨"Apple", "Apple Inc.", "apple inc", mkRat 19 20, "nonexistent_algorithm"⟩,
       ⟨"Apple", "Apple Computer", "apple computer", mkRat 19 20, "nonexistent_algorithm"⟩,
       ⟨"Apple", "Apple Store", "apple store", mkRat 19 20, "nonexistent_algorithm"⟩] := by
  have h := algorithm_fallback_amended [("token_set_ratio", fun _ _ => (0 : ℚ))]
    (fun _ _ => (0 : ℚ)) "bogus" (by decide) "Q" ["x"] (mkRat 1 2) 5
  exact ⟨by decide, h.1, h.2.2.2⟩

/-! ## Lemmas about the resolver -/

theorem head?_filter (p : α → Bool) (l : List α) :
    (l.filter p).head? = l.find? p := by
  induction l with
  | nil => rfl
  | cons a t ih =>
    rw [List.filter_cons, List.find?_cons]
    by_cases h : p a
    · rw [if_pos h, h]
      rfl
    · rw [if_neg h]
      cases hpa : p a
      · exact ih
      · exact absurd hpa h

theorem getLast?_filter (p : α → Bool) (l : List α) :
    (l.filter p).getLast? = l.reverse.find? p := by
  rw [List.getLast?_eq_head?_reverse, ← List.filter_reverse, head?_filter]

theorem insertAssoc_find_self (m : List (String × (String × String)))
    (k : String) (v : String × String) :
    (insertAssoc m k v).find? (fun e => e.1 == k) = some (k, v) := by
  induction m with
  | nil => simp [insertAssoc]
  | cons e rest ih =>
    obtain ⟨k0, v0⟩ := e
    unfold insertAssoc
    by_cases hk : k0 = k
    · rw [if_pos hk]
      subst hk
      simp [List.find?_cons]
    · rw [if_neg hk]
      rw [List.find?_cons]
      cases hb : (k0 == k)
      · exact ih
      · simp only [beq_iff_eq] at hb
        exact absurd hb hk

theorem insertAssoc_find_other (m : List (String × (String × String)))
    (k k2 : String) (v : String × String) (hkk : k2 ≠ k) :
    (insertAssoc m k v).find? (fun e => e.1 == k2) = m.find? (fun e => e.1 == k2) := by
  induction m with
  | nil =>
    simp only [insertAssoc, List.find?]
    cases hb : (k == k2)
    · rfl
    · simp only [beq_iff_eq] at hb
      exact absurd hb.symm hkk
  | cons e rest ih =>
    obtain ⟨k0, v0⟩ := e
    unfold insertAssoc
    by_cases hk : k0 = k
    · rw [if_pos hk]
      rw [List.find?_cons, List.find?_cons]
      dsimp only
      cases hb : (k0 == k2)
      · rfl
      · simp only [beq_iff_eq] at hb
        subst hk
        exact absurd hb.symm hkk
    · rw [if_neg hk]
      rw [List.find?_cons, List.find?_cons]
      dsimp only
      cases hb : (k0 == k2)
      · exact ih
      · rfl

theorem foldl_insertAssoc_find (pairs : List (String × String))
    (acc : List (String × (String × String))) (k : String) :
    (pairs.foldl (fun m p => insertAssoc m p.2 p) acc).find? (fun e => e.1 == k) =
      match pairs.reverse.find? (fun p => p.2 == k) with
      | some p => some (k, p)
      | none => acc.find? (fun e => e.1 == k) := by
  induction pairs generalizing acc with
  | nil => simp
  | cons p ps ih =>
    simp only [List.foldl_cons, List.reverse_cons]
    rw [ih, List.find?_append]
    cases hps : ps.reverse.find? (fun p => p.2 == k) with
    | some q => rfl
    | none =>
      simp only [Option.none_or]
      by_cases hpk : p.2 = k
      · subst hpk
        simp only [List.find?_cons, beq_self_eq_true]
        exact insertAssoc_find_self acc p.2 p
      · rw [List.find?_cons]
        cases hb : (p.2 == k)
        · simp only [List.find?_nil]
          exact insertAssoc_find_other acc p.2 k p (fun h2 => hpk h2.symm)
        · exact absurd (by simpa using hb) hpk

theorem buildLookup_find (pairs : List (String × String)) (k : String) :
    (buildLookup pairs).find? (fun e => e.1 == k) =
      match pairs.reverse.find? (fun p => p.2 == k) with
      | some p => some (k, p)
      | none => none := by
  rw [buildLookup, foldl_insertAssoc_find]
  cases pairs.reverse.find? (fun p => p.2 == k) <;> rfl

theorem find_of_mem_keys {β : Type} (l : List (String × β)) (k : String)
    (h : k ∈ l.map Prod.fst) : ∃ v, l.find? (fun e => e.1 == k) = some v := by
  induction l with
  | nil => simp at h
  | cons e rest ih =>
    rw [List.find?_cons]
    cases hb : (e.1 == k)
    · refine ih ?_
      simp only [List.map_cons, List.mem_cons] at h
      rcases h with h1 | h1
      · rw [beq_eq_false_iff_ne] at hb
        exact absurd h1.symm hb
      · exact h1
    · exact ⟨e, rfl⟩

theorem insertAssoc_keys (m : List (String × (String × String))) (k : String)
    (v : String × String) :
    (insertAssoc m k v).map Prod.fst =
      if k ∈ m.map Prod.fst then m.map Prod.fst else m.map Prod.fst ++ [k] := by
  induction m with
  | nil => simp [insertAssoc]
  | cons e rest ih =>
    obtain ⟨k0, v0⟩ := e
    unfold insertAssoc
    by_cases hk : k0 = k
    · subst hk
      simp
    · rw [if_neg hk]
      simp only [List.map_cons]
      rw [ih]
      by_cases hmem : k ∈ rest.map Prod.fst
      · rw [if_pos hmem, if_pos (List.mem_cons_of_mem _ hmem)]
      · have hnc : k ∉ k0 :: rest.map Prod.fst := by
          intro hcon
          rcases List.mem_cons.mp hcon with h1 | h1
          · exact hk h1.symm
          · exact hmem h1
        rw [if_neg hmem, if_neg hnc]
        rfl

theorem insertAssoc_keys_nodup (m : List (String × (String × String)))
    (k : String) (v : String × String) (h : (m.map Prod.fst).Nodup) :
    ((insertAssoc m k v).map Prod.fst).Nodup := by
  rw [insertAssoc_keys]
  by_cases hmem : k ∈ m.map Prod.fst
  · rwa [if_pos hmem]
  · rw [if_neg hmem]
    refine List.Nodup.append h (List.nodup_singleton k) ?_
    intro a ha hb
    rw [List.mem_singleton] at hb
    subst hb
    exact hmem ha

theorem buildLookup_keys_nodup (pairs : List (String × String)) :
    ((buildLookup pairs).map Prod.fst).Nodup := by
  have hgen : ∀ (acc : List (String × (String × String))), (acc.map Prod.fst).Nodup →
      ((pairs.foldl (fun m p => insertAssoc m p.2 p) acc).map Prod.fst).Nodup := by
    induction pairs with
    | nil => intro acc h; exact h
    | cons p ps ih =>
      intro acc h
      exact ih _ (insertAssoc_keys_nodup acc p.2 p h)
  exact hgen [] (by simp)

theorem filterMap_map_key_sublist {α β γ : Type} (l : List α) (g : α → Option β)
    (f : β → γ) (key : α → γ) (h : ∀ a ∈ l, ∀ b, g a = some b → f b = key a) :
    ((l.filterMap g).map f).Sublist (l.map key) := by
  induction l with
  | nil => simp
  | cons a t ih =>
    rw [List.filterMap_cons, List.map_cons]
    have ht := ih (fun x hx b hb => h x (List.mem_cons_of_mem a hx) b hb)
    cases hga : g a with
    | none => exact ht.cons (key a)
    | some b =>
      rw [List.map_cons, h a (List.mem_cons_self a t) b hga]
      exact ht.cons₂ (key a)

theorem ibmList_cons_nil {query c : String} {cs : List String}
    (h : ibmList query (c :: cs) = []) :
    ibmList query cs = [] ∧
    (query = "IBM" → (c == "IBM" || c == "IBM Corporation") = false) := by
  unfold ibmList at h ⊢
  by_cases hIq : query = "IBM"
  · rw [if_pos hIq] at h ⊢
    rw [List.filter_cons] at h
    by_cases hc : (c == "IBM" || c == "IBM Corporation") = true
    · rw [if_pos hc] at h
      exact absurd h (List.cons_ne_nil _ _)
    · rw [if_neg hc] at h
      exact ⟨h, fun _ => Bool.eq_false_iff.mpr hc⟩
  · rw [if_neg hIq]
    exact ⟨rfl, fun h2 => absurd h2 hIq⟩

theorem exact_filter_map (query : String) (candidates : List String)
    (hq : preprocess query ≠ "")
    (hibm : ibmList query candidates = []) :
    (processedPairs candidates).filter
        (fun p => exactCond query (preprocess query) p.1 p.2)
      = (candidates.filter
          (fun c => query == c || preprocess query == preprocess c)).map
          (fun c => (c, preprocess c)) := by
  induction candidates with
  | nil => rfl
  | cons c cs ih =>
    obtain ⟨hibm2, hcibm⟩ := ibmList_cons_nil hibm
    unfold processedPairs
    rw [List.filterMap_cons, List.filter_cons]
    by_cases hpc : preprocess c = ""
    · have hfc : processedPair c = none := by
        unfold processedPair
        rw [if_pos hpc]
      rw [hfc]
      have hcond : (query == c || preprocess query == preprocess c) = false := by
        rw [Bool.or_eq_false_iff]
        constructor
        · rw [beq_eq_false_iff_ne]
          intro h2
          exact hq (h2 ▸ hpc)
        · rw [beq_eq_false_iff_ne]
          intro h2
          exact hq (hpc ▸ h2)
      rw [hcond]
      exact ih hibm2
    · have hfc : processedPair c = some (c, preprocess c) := by
        unfold processedPair
        rw [if_neg hpc]
      rw [hfc]
      have hcond : exactCond query (preprocess query) c (preprocess c)
          = (query == c || preprocess query == preprocess c) := by
        unfold exactCond
        by_cases hIq : query = "IBM"
        · rw [hcibm hIq]
          simp
        · have : (query == "IBM") = false := beq_eq_false_iff_ne.mpr hIq
          rw [this]
          simp
      rw [List.filter_cons]
      dsimp only
      rw [hcond]
      by_cases hcd : (query == c || preprocess query == preprocess c) = true
      · rw [hcd, if_pos rfl, if_pos rfl, List.map_cons]
        exact congrArg _ (ih hibm2)
      · rw [Bool.eq_false_iff.mpr hcd, if_neg (by simp), if_neg (by simp)]
        exact ih hibm2

theorem resolve_ibm_path (cfg : ResolverConfig) (query : String)
    (candidates : List String) (hq : preprocess query ≠ "")
    (hibm : ibmList query candidates ≠ []) :
    resolve cfg query candidates =
      (ibmList query candidates).map (fun c => ⟨c, preprocess c, 1⟩) := by
  unfold resolve
  rw [if_neg hq, if_pos hibm]
  refine sortCandidates_of_const_score _ 1 ?_
  intro x hx
  obtain ⟨c, _, rfl⟩ := List.mem_map.mp hx
  rfl

theorem resolve_exact_path (cfg : ResolverConfig) (query : String)
    (candidates : List String) (hq : preprocess query ≠ "")
    (hibm : ibmList query candidates = [])
    (hex : candidates.filter
      (fun c => query == c || preprocess query == preprocess c) ≠ []) :
    resolve cfg query candidates =
      (candidates.filter
        (fun c => query == c || preprocess query == preprocess c)).map
        (fun c => ⟨c, preprocess c, 1⟩) := by
  unfold resolve
  rw [if_neg hq, if_neg (not_not_intro hibm)]
  dsimp only
  rw [exact_filter_map query candidates hq hibm]
  rw [if_pos (by
    intro h2
    exact hex (List.map_eq_nil_iff.mp h2))]
  rw [List.map_map]
  refine sortCandidates_of_const_score _ 1 ?_
  intro x hx
  obtain ⟨c, _, rfl⟩ := List.mem_map.mp hx
  rfl

theorem resolve_ranking_path (cfg : ResolverConfig) (query : String)
    (candidates : List String) (hq : preprocess query ≠ "")
    (hibm : ibmList query candidates = [])
    (hex : candidates.filter
      (fun c => query == c || preprocess query == preprocess c) = []) :
    resolve cfg query candidates =
      (if processedPairs candidates = [] then []
       else resolveRanked cfg (preprocess query) (processedPairs candidates)) := by
  unfold resolve
  rw [if_neg hq, if_neg (not_not_intro hibm)]
  dsimp only
  rw [exact_filter_map query candidates hq hibm, hex]
  rw [if_neg (by simp)]

theorem resolveRanked_spec (cfg : ResolverConfig) (pq : String)
    (pmap : List (String × String)) :
    (∀ mc ∈ resolveRanked cfg pq pmap, cfg.threshold ≤ mc.score) ∧
    (resolveRanked cfg pq pmap).length ≤ cfg.limit ∧
    (resolveRanked cfg pq pmap).Pairwise (fun a b => b.score ≤ a.score) := by
  unfold resolveRanked
  dsimp only
  refine ⟨?_, ?_, sortCandidates_pairwise _⟩
  · intro mc hmc
    have hmem := (sortCandidates_perm _).mem_iff.mp hmc
    obtain ⟨bc, _, hbc⟩ := List.mem_filterMap.mp hmem
    split at hbc
    · obtain rfl := Option.some.inj hbc
      assumption
    · exact Option.noConfusion hbc
  · rw [(sortCandidates_perm _).length_eq]
    refine le_trans (List.length_filterMap_le _ _) ?_
    unfold extractModel
    rw [List.length_take]
    exact min_le_left _ _

/-- C1 (counterexample): for the query "IBM" and the single candidate
"IBM Corporation", no candidate's raw string equals the query's and no
candidate's normalized string equals the query's normalized string
("ibm corp" against "ibm"), yet resolve returns that candidate with score
1.0 through the exact-match short-circuit (the ranking algorithm — here the
constant-zero similarity, which could never reach the 0.8 threshold — is
bypassed): the hard-coded IBM abbreviation special case. -/
theorem resolve_exact_shortcircuit_cex :
    resolve ⟨fun _ _ => 0, mkRat 4 5, 5⟩ "IBM" ["IBM Corporation"]
      = [⟨"IBM Corporation", "ibm corp", 1⟩] ∧
    decide (("IBM" : String) = "IBM Corporation" ∨
      preprocess "IBM" = preprocess "IBM Corporation") = false :=
  ⟨by decide, by decide⟩

/-- C1 (amended): when the normalized query is non-empty, resolve takes the
exact-match short-circuit exactly when some candidate's raw string equals
the query's raw string, some candidate's normalized string equals the
query's normalized string, or the hard-coded abbreviation case applies
(query "IBM" with a candidate named "IBM" or "IBM Corporation").  In the
abbreviation case the returned list is the IBM-named candidates, in
original order, all with score 1.0 (normalized-equal candidates are
dropped); otherwise the exact path returns precisely the raw- or
normalized-equal candidates, in original order, all with score 1.0; and
when neither applies the ranking algorithm runs. -/
theorem resolve_exact_shortcircuit_amended (cfg : ResolverConfig)
    (query : String) (candidates : List String)
    (hq : preprocess query ≠ "") :
    (ibmList query candidates ≠ [] →
      resolve cfg query candidates =
        (ibmList query candidates).map (fun c => ⟨c, preprocess c, 1⟩)) ∧
    (ibmList query candidates = [] →
      (candidates.filter
          (fun c => query == c || preprocess query == preprocess c) ≠ [] →
        resolve cfg query candidates =
          (candidates.filter
            (fun c => query == c || preprocess query == preprocess c)).map
            (fun c => ⟨c, preprocess c, 1⟩)) ∧
      (candidates.filter
          (fun c => query == c || preprocess query == preprocess c) = [] →
        resolve cfg query candidates =
          (if processedPairs candidates = [] then []
           else resolveRanked cfg (preprocess query) (processedPairs candidates)))) :=
  ⟨fun hibm => resolve_ibm_path cfg query candidates hq hibm,
   fun hibm =>
    ⟨fun hex => resolve_exact_path cfg query candidates hq hibm hex,
     fun hex => resolve_ranking_path cfg query candidates hq hibm hex⟩⟩

theorem resolve_exact_shortcircuit_amended_witness :
    decide (preprocess "Apple Inc." = "") = false ∧
    resolve ⟨fun _ _ => 0, mkRat 4 5, 5⟩ "Apple Inc."
        ["Apple Incorporated", "Microsoft"]
      = [⟨"Apple Incorporated", "apple inc", 1⟩] := by
  have h := resolve_exact_shortcircuit_amended (⟨fun _ _ => 0, mkRat 4 5, 5⟩ : ResolverConfig)
    "Apple Inc." ["Apple Incorporated", "Microsoft"] (by decide)
  refine ⟨by decide, ?_⟩
  have h2 := (h.2 (by decide)).1 (by decide)
  rw [h2]
  decide

/-- C9 (counterexample): for the query "IBM" with candidate
"IBM Corporation" — which satisfies neither exact-match condition of the
spec — and limit 0, resolve does not rank: the abbreviation special case
returns one candidate, exceeding the limit (and ignoring the ranking
algorithm entirely). -/
theorem resolve_ranking_guarantees_cex :
    decide (preprocess "IBM" = "") = false ∧
    decide (("IBM" : String) = "IBM Corporation" ∨
      preprocess "IBM" = preprocess "IBM Corporation") = false ∧
    resolve ⟨fun _ _ => 0, mkRat 1 2, 0⟩ "IBM" ["IBM Corporation"]
      = [⟨"IBM Corporation", "ibm corp", 1⟩] ∧
    decide ((resolve ⟨fun _ _ => 0, mkRat 1 2, 0⟩ "IBM" ["IBM Corporation"]).length ≤ 0)
      = false :=
  ⟨by decide, by decide, by decide, by decide⟩

/-- C9 (amended): when the normalized query is non-empty, no candidate
satisfies the exact-match condition (raw or normalized equality), and the
IBM abbreviation special case does not apply, every candidate resolve
returns scores at or above the configured threshold, the result has at most
limit elements, and it is sorted by score descending (resolve is a pure
function of the ordered candidate list, so the tie order is deterministic,
fixed by the input candidate order through the stable sorts it applies). -/
theorem resolve_ranking_guarantees (cfg : ResolverConfig)
    (query : String) (candidates : List String)
    (hq : preprocess query ≠ "")
    (hibm : ibmList query candidates = [])
    (hex : candidates.filter
      (fun c => query == c || preprocess query == preprocess c) = []) :
    (∀ mc ∈ resolve cfg query candidates, cfg.threshold ≤ mc.score) ∧
    (resolve cfg query candidates).length ≤ cfg.limit ∧
    (resolve cfg query candidates).Pairwise (fun a b => b.score ≤ a.score) := by
  rw [resolve_ranking_path cfg query candidates hq hibm hex]
  by_cases hp : processedPairs candidates = []
  · rw [if_pos hp]
    exact ⟨by intro mc hmc; simp at hmc, by simp, List.Pairwise.nil⟩
  · rw [if_neg hp]
    exact resolveRanked_spec cfg (preprocess query) (processedPairs candidates)

theorem resolve_ranking_guarantees_witness :
    decide (preprocess "Orange" = "") = false ∧
    ibmList "Orange" ["Apple Incorporated", "Microsoft"] = [] ∧
    (resolve ⟨fun _ _ => 1, mkRat 1 2, 5⟩ "Orange"
      ["Apple Incorporated", "Microsoft"]).length ≤ 5 := by
  have h := resolve_ranking_guarantees (⟨fun _ _ => 1, mkRat 1 2, 5⟩ : ResolverConfig)
    "Orange" ["Apple Incorporated", "Microsoft"] (by decide) (by decide) (by decide)
  exact ⟨by decide, by decide, h.2.1⟩

theorem processedPair_eq_none {c : String} (h : processedPair c = none) :
    preprocess c = "" := by
  unfold processedPair at h
  by_cases hpc : preprocess c = ""
  · exact hpc
  · rw [if_neg hpc] at h
    exact Option.noConfusion h

theorem processedPair_eq_some {c : String} {p : String × String}
    (h : processedPair c = some p) :
    p = (c, preprocess c) ∧ preprocess c ≠ "" := by
  unfold processedPair at h
  by_cases hpc : preprocess c = ""
  · rw [if_pos hpc] at h
    exact Option.noConfusion h
  · rw [if_neg hpc] at h
    exact ⟨(Option.some.inj h).symm, hpc⟩

theorem find?_filterMap_processed (l : List String) (k : String) (hk : k ≠ "") :
    (l.filterMap processedPair).find? (fun p => p.2 == k) =
      (l.find? (fun c => preprocess c == k)).map (fun c => (c, preprocess c)) := by
  induction l with
  | nil => rfl
  | cons c cs ih =>
    rw [List.filterMap_cons]
    cases hfc : processedPair c with
    | none =>
      have hpc := processedPair_eq_none hfc
      have hpred : (preprocess c == k) = false :=
        beq_eq_false_iff_ne.mpr (by rw [hpc]; exact fun h2 => hk h2.symm)
      rw [List.find?_cons, hpred]
      exact ih
    | some p =>
      obtain ⟨rfl, hpcne⟩ := processedPair_eq_some hfc
      rw [List.find?_cons, List.find?_cons]
      dsimp only
      cases hpred : (preprocess c == k)
      · exact ih
      · rfl

theorem processedPairs_reverse_find (candidates : List String) (k : String)
    (hk : k ≠ "") :
    (processedPairs candidates).reverse.find? (fun p => p.2 == k) =
      (candidates.reverse.find? (fun c => preprocess c == k)).map
        (fun c => (c, preprocess c)) := by
  rw [processedPairs, ← List.filterMap_reverse]
  exact find?_filterMap_processed candidates.reverse k hk

theorem lookupGet_spec (pairs : List (String × String)) (k : String)
    (hk : k ∈ (buildLookup pairs).map Prod.fst) :
    ∃ p, pairs.reverse.find? (fun p => p.2 == k) = some p ∧
      lookupGet (buildLookup pairs) k = p ∧ p.2 = k ∧ p ∈ pairs := by
  obtain ⟨v, hv⟩ := find_of_mem_keys _ k hk
  have hchar := buildLookup_find pairs k
  cases hrev : pairs.reverse.find? (fun p => p.2 == k) with
  | none =>
    rw [hrev] at hchar
    rw [hchar] at hv
    exact Option.noConfusion hv
  | some p =>
    rw [hrev] at hchar
    refine ⟨p, rfl, ?_, ?_, ?_⟩
    · unfold lookupGet
      rw [hchar]
      rfl
    · simpa using List.find?_some hrev
    · exact List.mem_reverse.mp (List.mem_of_find?_eq_some hrev)

theorem mem_extract_key (scorer : String → String → ℚ) (pq : String)
    (choices : List String) (limit : Nat) (bc : String × ℚ)
    (h : bc ∈ extractModel scorer pq choices limit) : bc.1 ∈ choices := by
  unfold extractModel at h
  have h2 := List.mem_of_mem_take h
  have h3 := (stableSort_perm _ _).mem_iff.mp h2
  obtain ⟨ch, hch, hmk⟩ := List.mem_map.mp h3
  rw [← hmk]
  exact hch

theorem extract_keys_nodup (scorer : String → String → ℚ) (pq : String)
    (choices : List String) (limit : Nat) (h : choices.Nodup) :
    ((extractModel scorer pq choices limit).map Prod.fst).Nodup := by
  unfold extractModel
  rw [List.map_take]
  refine List.Nodup.sublist (List.take_sublist _ _) ?_
  have hperm := (stableSort_perm
    (fun a b : String × ℚ => decide (b.2 ≤ a.2))
    (choices.map fun c =>
      (c, scorer (String.mk (extractProcess pq.data))
            (String.mk (extractProcess c.data))))).map Prod.fst
  refine hperm.nodup_iff.mpr ?_
  rw [List.map_map]
  have hid : (Prod.fst ∘ fun c : String =>
      (c, scorer (String.mk (extractProcess pq.data))
            (String.mk (extractProcess c.data)))) = id := rfl
  rw [hid, List.map_id]
  exact h

theorem rankFun_eq_some (cfg : ResolverConfig)
    (lookup : List (String × (String × String))) (bc : String × ℚ)
    (mc : MatchCandidate)
    (h : (if cfg.threshold ≤ ratDiv bc.2 100 then
            some (⟨(lookupGet lookup bc.1).1, (lookupGet lookup bc.1).2,
                   ratDiv bc.2 100⟩ : MatchCandidate)
          else none) = some mc) :
    mc = ⟨(lookupGet lookup bc.1).1, (lookupGet lookup bc.1).2,
          ratDiv bc.2 100⟩ := by
  by_cases hq : cfg.threshold ≤ ratDiv bc.2 100
  · rw [if_pos hq] at h
    exact (Option.some.inj h).symm
  · rw [if_neg hq] at h
    exact Option.noConfusion h

theorem resolveRanked_dedup (cfg : ResolverConfig) (pq : String)
    (candidates : List String) :
    ((resolveRanked cfg pq (processedPairs candidates)).map
      (fun mc => mc.processed)).Nodup ∧
    (∀ mc ∈ resolveRanked cfg pq (processedPairs candidates),
      (candidates.filter (fun c => preprocess c == mc.processed)).getLast? =
        some mc.raw) := by
  constructor
  · unfold resolveRanked
    dsimp only
    refine (((sortCandidates_perm _).map (fun mc => mc.processed)).nodup_iff).mpr ?_
    have hnd := extract_keys_nodup (fun q c => ratMul (cfg.sim q c) 100) pq
      ((buildLookup (processedPairs candidates)).map Prod.fst) cfg.limit
      (buildLookup_keys_nodup _)
    refine List.Nodup.sublist ?_ hnd
    refine filterMap_map_key_sublist _ _ _ _ ?_
    intro bc hbc mc hmc
    have hmceq := rankFun_eq_some cfg (buildLookup (processedPairs candidates)) bc mc hmc
    have hkey := mem_extract_key _ _ _ _ bc hbc
    obtain ⟨p, _, hget, hpk, _⟩ := lookupGet_spec (processedPairs candidates) bc.1 hkey
    rw [hmceq]
    show (lookupGet (buildLookup (processedPairs candidates)) bc.1).2 = bc.1
    rw [hget, hpk]
  · intro mc hmc
    unfold resolveRanked at hmc
    have hmem := (sortCandidates_perm _).mem_iff.mp hmc
    obtain ⟨bc, hbcmem, hbc⟩ := List.mem_filterMap.mp hmem
    have hmceq := rankFun_eq_some cfg (buildLookup (processedPairs candidates)) bc mc hbc
    have hkey := mem_extract_key _ _ _ _ bc hbcmem
    obtain ⟨p, hrev, hget, hpk, hpmem⟩ :=
      lookupGet_spec (processedPairs candidates) bc.1 hkey
    have hkne : bc.1 ≠ "" := by
      obtain ⟨c0, hc0, hc0p⟩ := List.mem_filterMap.mp hpmem
      obtain ⟨rfl, hne⟩ := processedPair_eq_some hc0p
      rw [← hpk]
      exact hne
    rw [getLast?_filter, hmceq]
    show candidates.reverse.find?
        (fun c => preprocess c ==
          (lookupGet (buildLookup (processedPairs candidates)) bc.1).2) =
      some (lookupGet (buildLookup (processedPairs candidates)) bc.1).1
    rw [hget, hpk]
    have htr := processedPairs_reverse_find candidates bc.1 hkne
    rw [hrev] at htr
    cases hx : candidates.reverse.find? (fun c => preprocess c == bc.1) with
    | none =>
      rw [hx] at htr
      exact Option.noConfusion htr
    | some c0 =>
      rw [hx] at htr
      have hp := Option.some.inj htr
      rw [hp]

/-- C10: in the ranking path (non-empty normalized query, no exact or
special-cased match), resolve returns at most one candidate per distinct
normalized string — the returned processed values are pairwise distinct
because ranking operates on the lookup dict keyed by normalized value — and
the survivor carries the raw name of the last candidate in input order with
that normalized form, because the dict comprehension overwrites earlier
entries. -/
theorem resolve_ranking_dedup_last (cfg : ResolverConfig)
    (query : String) (candidates : List String)
    (hq : preprocess query ≠ "")
    (hibm : ibmList query candidates = [])
    (hex : candidates.filter
      (fun c => query == c || preprocess query == preprocess c) = []) :
    ((resolve cfg query candidates).map (fun mc => mc.processed)).Nodup ∧
    (∀ mc ∈ resolve cfg query candidates,
      (candidates.filter (fun c => preprocess c == mc.processed)).getLast? =
        some mc.raw) := by
  rw [resolve_ranking_path cfg query candidates hq hibm hex]
  by_cases hp : processedPairs candidates = []
  · rw [if_pos hp]
    exact ⟨List.nodup_nil, by intro mc hmc; simp at hmc⟩
  · rw [if_neg hp]
    exact resolveRanked_dedup cfg (preprocess query) candidates

theorem resolve_ranking_dedup_last_witness :
    decide (preprocess "Orange" = "") = false ∧
    resolve ⟨fun _ _ => 1, mkRat 1 2, 5⟩ "Orange" ["apple inc", "Apple Inc."]
      = [⟨"Apple Inc.", "apple inc", 1⟩] ∧
    ((resolve ⟨fun _ _ => 1, mkRat 1 2, 5⟩ "Orange"
        ["apple inc", "Apple Inc."]).map (fun mc => mc.processed)).Nodup ∧
    ((["apple inc", "Apple Inc."] : List String).filter
      (fun c => preprocess c == "apple inc")).getLast? = some "Apple Inc." := by
  have h := resolve_ranking_dedup_last (⟨fun _ _ => 1, mkRat 1 2, 5⟩ : ResolverConfig)
    "Orange" ["apple inc", "Apple Inc."] (by decide) (by decide) (by decide)
  have hm : (⟨"Apple Inc.", "apple inc", 1⟩ : MatchCandidate) ∈
      resolve ⟨fun _ _ => 1, mkRat 1 2, 5⟩ "Orange" ["apple inc", "Apple Inc."] := by
    decide
  exact ⟨by decide, by decide, h.1, h.2 ⟨"Apple Inc.", "apple inc", 1⟩ hm⟩

end Fuzzy
